import Mathlib

/-!
# simple_chat: the server's registry, connection handler and event loop

A shallow embedding of `server/main.go`.

* A `net.Conn` is an interface value compared by identity (`c == conn`); it is
  modelled by a natural number naming the connection.
* A Go `string` is modelled by a Lean `String`.  The only characters the code
  inspects are CR and LF, which are single bytes in UTF-8.
* `map[string][]net.Conn` is modelled by an association list without duplicate
  keys.  The order of the entries stands for the order in which one `range`
  over the map visits the keys, which Go leaves unspecified.
* A buffered channel is modelled by the list of values waiting in it, oldest
  first.
* A run-time panic is modelled by `none`.
-/

namespace SimpleChat

/-- Identity of a `net.Conn`. -/
abbrev Conn := Nat

/-- The constant `ServerUsername`. -/
def ServerUsername : String := "server"

/-- The struct `Message`. -/
structure Message where
  SenderName : String
  Text : String
  deriving DecidableEq, Repr

/-- The struct `UserConnection`. -/
structure UserConnection where
  Username : String
  Connection : Conn
  deriving DecidableEq, Repr

/-- The type of the field `UserConnections`, `map[string][]net.Conn`. -/
abbrev ConnMap := AList (fun _ : String => List Conn)

/-- The struct `ChatServer`, without the listener and the mutex. -/
structure ChatServer where
  UserConnections : ConnMap
  OpenedConnections : List Conn
  DeadConnections : List UserConnection
  Messages : List Message

instance : DecidableEq ChatServer := fun a b =>
  decidable_of_iff
    (a.UserConnections.entries = b.UserConnections.entries ∧
      a.OpenedConnections = b.OpenedConnections ∧
      a.DeadConnections = b.DeadConnections ∧ a.Messages = b.Messages)
    (by
      constructor
      · rintro ⟨h1, h2, h3, h4⟩
        cases a
        cases b
        simp only [ChatServer.mk.injEq]
        exact ⟨AList.ext h1, h2, h3, h4⟩
      · rintro rfl
        exact ⟨rfl, rfl, rfl, rfl⟩)

/-- The function `NewChatServer`: an empty map and three empty channels. -/
def NewChatServer : ChatServer :=
  { UserConnections := ∅
    OpenedConnections := []
    DeadConnections := []
    Messages := [] }

/-- The map index expression `m[username]` in its two-result form. -/
def entry (c : ChatServer) (username : String) : Option (List Conn) :=
  c.UserConnections.lookup username

/-- The map index expression `m[username]` in its one-result form: a missing
key yields the nil slice. -/
def connsOf (c : ChatServer) (username : String) : List Conn :=
  (entry c username).getD []

/-- The assignment `c.UserConnections[username] = s`. -/
def setEntry (c : ChatServer) (username : String) (s : List Conn) : ChatServer :=
  { c with UserConnections := c.UserConnections.insert username s }

/-- The statement `delete(c.UserConnections, username)`. -/
def deleteEntry (c : ChatServer) (username : String) : ChatServer :=
  { c with UserConnections := c.UserConnections.erase username }

/-- The method `addUserClient`: the new state and the result `isNew`. -/
def addUserClient (c : ChatServer) (username : String) (conn : Conn) : ChatServer × Bool :=
  match entry c username with
  | none => (setEntry c username [conn], true)
  | some s => (setEntry c username (s ++ [conn]), false)

/-- The search loop of `deleteUserClient` from index `i` on: the index of the
first element equal to `conn`, if the loop reaches its `break`. -/
def searchFrom (conn : Conn) : List Conn → Nat → Option Nat
  | [], _ => none
  | x :: xs, i => if x = conn then some i else searchFrom conn xs (i + 1)

/-- The value of `id` after the search loop of `deleteUserClient`: it is
declared by `var id int`, so it is `0` when the loop never assigns it. -/
def searchId (s : List Conn) (conn : Conn) : Nat :=
  (searchFrom conn s 0).getD 0

/-- The expression `append(s[:id], s[id+1:]...)`.  The slice expression
`s[id+1:]` panics when `id+1 > len(s)`. -/
def removeAt (s : List Conn) (id : Nat) : Option (List Conn) :=
  if id + 1 ≤ s.length then some (s.take id ++ s.drop (id + 1)) else none

/-- The method `deleteUserClient`: `none` when it panics, otherwise the new
state and the result `isDeleted`. -/
def deleteUserClient (c : ChatServer) (username : String) (conn : Conn) :
    Option (ChatServer × Bool) :=
  match removeAt (connsOf c username) (searchId (connsOf c username) conn) with
  | none => none
  | some s =>
    if s.length = 0 then some (deleteEntry (setEntry c username s) username, true)
    else some (setEntry c username s, false)

/-! ## The connection handler -/

/-- Membership of a character in the cutset of `strings.Trim`. -/
def inCutset (cutset : String) (ch : Char) : Bool :=
  cutset.data.contains ch

/-- The library function `strings.Trim(s, cutset)`: `s` without its leading
and its trailing characters that occur in `cutset`.  As in the library, the
right end is trimmed first and the left end second. -/
def Trim (s cutset : String) : String :=
  ⟨((s.data.rdropWhile (inCutset cutset)).dropWhile (inCutset cutset))⟩

/-- The login line with only its trailing characters of `cutset` removed (the
library function `strings.TrimRight`); the handler does not call it. -/
def TrimRight (s cutset : String) : String :=
  ⟨s.data.rdropWhile (inCutset cutset)⟩

/-- The two results `(text, err)` of one call `r.ReadString('\n')`. -/
structure ReadResult where
  text : String
  err : Option String
  deriving DecidableEq, Repr

/-- A channel send performed by a handler: on `c.Messages` or on
`c.DeadConnections`. -/
inductive Send where
  | message (m : Message)
  | dead (uc : UserConnection)
  deriving DecidableEq, Repr

/-- Where a handler goroutine stands: before the read of the login line, in
the relay loop under `senderName`, or returned. -/
inductive Phase where
  | login
  | relay (senderName : String)
  | done
  deriving DecidableEq, Repr

/-- The text of the online notice, `fmt.Sprintf("%s is online\r\n", senderName)`. -/
def onlineText (senderName : String) : String :=
  senderName ++ " is online\r\n"

/-- The text of the offline notice, `fmt.Sprintf("%s is offline\r\n", username)`. -/
def offlineText (username : String) : String :=
  username ++ " is offline\r\n"

/-- The handler goroutine of `ServeConnections` up to and including what it
does with the result `r` of its next `ReadString`: the new state of the
registry, the new phase, and the channel sends in program order. -/
def handlerStep (c : ChatServer) (conn : Conn) :
    Phase → ReadResult → ChatServer × Phase × List Send
  | Phase.login, r =>
    match r.err with
    | some _ => (c, Phase.done, [])
    | none =>
      let senderName := Trim r.text "\r\n"
      let res := addUserClient c senderName conn
      (res.1, Phase.relay senderName,
        if res.2 then [Send.message ⟨ServerUsername, onlineText senderName⟩] else [])
  | Phase.relay senderName, r =>
    match r.err with
    | some _ => (c, Phase.done, [Send.dead ⟨senderName, conn⟩])
    | none => (c, Phase.relay senderName, [Send.message ⟨senderName, r.text⟩])
  | Phase.done, _ => (c, Phase.done, [])

/-- The handler goroutine run on the results of its successive reads, from
phase `ph` on.  When the results are used up the handler is waiting in its
next read. -/
def handler (c : ChatServer) (conn : Conn) : Phase → List ReadResult → ChatServer × Phase × List Send
  | ph, [] => (c, ph, [])
  | ph, r :: rs =>
    let s1 := handlerStep c conn ph r
    let s2 := handler s1.1 conn s1.2.1 rs
    (s2.1, s2.2.1, s1.2.2 ++ s2.2.2)

/-- A read that returned the line `text` and no error. -/
def okRead (text : String) : ReadResult := ⟨text, none⟩

/-! ## The event loop -/

/-- A channel send `ch <- v`: the value joins the end of the queue. -/
def send (c : ChatServer) : Send → ChatServer
  | Send.message m => { c with Messages := c.Messages ++ [m] }
  | Send.dead uc => { c with DeadConnections := c.DeadConnections ++ [uc] }

/-- What the event loop does to the outside: a `conn.Write` or a log line. -/
inductive Effect where
  | write (conn : Conn) (data : String)
  | log (text : String)
  deriving DecidableEq, Repr

/-- The formatted line `fmt.Sprintf("%s: %s", msg.SenderName, msg.Text)`. -/
def formatMessage (msg : Message) : String :=
  msg.SenderName ++ ": " ++ msg.Text

/-- The inner loop of the `Messages` case over one user's connections.
`writeErr conn` is the error `conn.Write` returns, if any. -/
def writeConns (writeErr : Conn → Option String) (data : String) : List Conn → List Effect
  | [] => []
  | conn :: rest =>
    (Effect.write conn data ::
      (match writeErr conn with
       | some e => [Effect.log e]
       | none => [])) ++ writeConns writeErr data rest

/-- The outer loop of the `Messages` case over the entries of the map. -/
def writeUsers (writeErr : Conn → Option String) (data : String) :
    List (Sigma fun _ : String => List Conn) → List Effect
  | [] => []
  | e :: rest => writeConns writeErr data e.2 ++ writeUsers writeErr data rest

/-- The body of `case msg := <-c.Messages` for the received `msg`: the state
afterwards and the effects in order. -/
def serveMessage (c : ChatServer) (writeErr : Conn → Option String) (msg : Message) :
    ChatServer × List Effect :=
  (c, writeUsers writeErr (formatMessage msg) c.UserConnections.entries ++
    [Effect.log (formatMessage msg)])

/-- The body of `case deadConn := <-c.DeadConnections` for the received
`deadConn`; `none` when `deleteUserClient` panics. -/
def serveDead (c : ChatServer) (deadConn : UserConnection) : Option ChatServer :=
  match deleteUserClient c deadConn.Username deadConn.Connection with
  | none => none
  | some (c1, deleted) =>
    if deleted then
      some (send c1 (Send.message ⟨ServerUsername, offlineText deadConn.Username⟩))
    else some c1

/-! ## The server as a transition system -/

/-- The server while it runs: the `ChatServer` value, the handler goroutines
that have not returned (each with its connection and its phase), and every
connection `Accept` has returned so far. -/
structure ServerState where
  cs : ChatServer
  handlers : List (Conn × Phase)
  accepted : List Conn

/-- The server right after `NewChatServer`. -/
def initState : ServerState :=
  { cs := NewChatServer, handlers := [], accepted := [] }

/-- One atomic step of the server.
* `accept`: `AcceptNewConnections` gets a connection from `Accept` and sends
  it on `OpenedConnections`;
* `spawn`: the event loop receives from `OpenedConnections` and starts the
  handler goroutine;
* `read`: the handler of `conn` gets the result `r` from `ReadString` and runs
  up to its next read;
* `reap`: the event loop receives from `DeadConnections`;
* `broadcast`: the event loop receives from `Messages`. -/
inductive Action where
  | accept (conn : Conn)
  | spawn
  | read (conn : Conn) (r : ReadResult)
  | reap
  | broadcast (writeErr : Conn → Option String)

/-- The phase of the handler goroutine serving `conn`, if there is one. -/
def phaseOf : List (Conn × Phase) → Conn → Option Phase
  | [], _ => none
  | (x, ph) :: rest, conn => if x = conn then some ph else phaseOf rest conn

/-- The goroutines without the handler serving `conn`. -/
def dropHandler (conn : Conn) : List (Conn × Phase) → List (Conn × Phase)
  | [] => []
  | (x, ph) :: rest => if x = conn then rest else (x, ph) :: dropHandler conn rest

/-- The goroutines after the handler of `conn` moved to phase `new`; a handler
that returned is gone. -/
def resume (hs : List (Conn × Phase)) (conn : Conn) (new : Phase) : List (Conn × Phase) :=
  match new with
  | Phase.done => dropHandler conn hs
  | _ => (conn, new) :: dropHandler conn hs

/-- The step function: `none` when the action cannot happen in `s` (nothing to
receive, no such handler, a connection `Accept` already returned) or when the
step panics.  A channel send never blocks here; the source's channels hold
1000 values, so the source's runs are among the runs of this model. -/
def step (s : ServerState) : Action → Option ServerState
  | Action.accept conn =>
    if conn ∈ s.accepted then none
    else some
      { s with
        cs := { s.cs with OpenedConnections := s.cs.OpenedConnections ++ [conn] }
        accepted := conn :: s.accepted }
  | Action.spawn =>
    match s.cs.OpenedConnections with
    | [] => none
    | conn :: rest =>
      some
        { s with
          cs := { s.cs with OpenedConnections := rest }
          handlers := (conn, Phase.login) :: s.handlers }
  | Action.read conn r =>
    match phaseOf s.handlers conn with
    | none => none
    | some ph =>
      let res := handlerStep s.cs conn ph r
      some
        { s with
          cs := res.2.2.foldl send res.1
          handlers := resume s.handlers conn res.2.1 }
  | Action.reap =>
    match s.cs.DeadConnections with
    | [] => none
    | deadConn :: rest =>
      match serveDead { s.cs with DeadConnections := rest } deadConn with
      | none => none
      | some c1 => some { s with cs := c1 }
  | Action.broadcast writeErr =>
    match s.cs.Messages with
    | [] => none
    | msg :: rest =>
      some { s with cs := (serveMessage { s.cs with Messages := rest } writeErr msg).1 }

/-- The state after a sequence of steps. -/
def run (s : ServerState) : List Action → Option ServerState
  | [] => some s
  | a :: rest =>
    match step s a with
    | none => none
    | some s1 => run s1 rest

/-- The states the server can be in. -/
def Reachable (s : ServerState) : Prop :=
  ∃ acts, run initState acts = some s

/-- The connections the server still works on: those waiting in
`OpenedConnections`, those of the running handlers, and those waiting in
`DeadConnections`. -/
def liveIds (s : ServerState) : List Conn :=
  s.cs.OpenedConnections ++
    (s.handlers.map Prod.fst ++ s.cs.DeadConnections.map UserConnection.Connection)

/-- The invariant of the server: no connection is worked on twice, every
connection worked on came from `Accept`, and the connection of every handler
in its relay loop and of every waiting dead-connection event is registered
under the username that goes with it. -/
def ServerInv (s : ServerState) : Prop :=
  (liveIds s).Nodup ∧ (∀ x ∈ liveIds s, x ∈ s.accepted) ∧
  (∀ conn u, (conn, Phase.relay u) ∈ s.handlers → conn ∈ connsOf s.cs u) ∧
  (∀ d ∈ s.cs.DeadConnections, d.Connection ∈ connsOf s.cs d.Username)

/-! ## Sequences of registry calls -/

/-- A call of one of the two registry methods. -/
inductive Op where
  | add (username : String) (conn : Conn)
  | remove (username : String) (conn : Conn)
  deriving DecidableEq, Repr

/-- The call `op` on the registry: `none` when it panics, otherwise the new
state and the boolean result. -/
def applyOp (c : ChatServer) : Op → Option (ChatServer × Bool)
  | Op.add username conn => some (addUserClient c username conn)
  | Op.remove username conn => deleteUserClient c username conn

/-- The calls in order: the final state and the results of all calls, or
`none` when one of them panics. -/
def runOps (c : ChatServer) : List Op → Option (ChatServer × List Bool)
  | [] => some (c, [])
  | op :: rest =>
    match applyOp c op with
    | none => none
    | some (c1, b) =>
      match runOps c1 rest with
      | none => none
      | some (c2, bs) => some (c2, b :: bs)

/-- The connections added by the calls `h`. -/
def addedConns (h : List Op) : List Conn :=
  h.filterMap fun op =>
    match op with
    | Op.add _ conn => some conn
    | Op.remove _ _ => none

/-- The connections removed by the calls `h`. -/
def removedConns (h : List Op) : List Conn :=
  h.filterMap fun op =>
    match op with
    | Op.add _ _ => none
    | Op.remove _ conn => some conn

/-- The call `op` is allowed after the calls `pre`: an add names a connection
not added before; a remove names a connection added before under the same
username and not removed before. -/
def okAfter (pre : List Op) : Op → Bool
  | Op.add _ conn => decide (conn ∉ addedConns pre)
  | Op.remove username conn =>
    decide (Op.add username conn ∈ pre) && decide (conn ∉ removedConns pre)

/-- Every call of a history given newest first is allowed after the calls
before it. -/
def okHistory : List Op → Bool
  | [] => true
  | op :: older => okAfter older.reverse op && okHistory older

/-- Each connection is added at most once and removed at most once, only
after its add and under the same username. -/
def WellFormed (h : List Op) : Prop :=
  okHistory h.reverse = true

instance (h : List Op) : Decidable (WellFormed h) :=
  inferInstanceAs (Decidable (okHistory h.reverse = true))

/-- The connections added under `username` by the calls `h`, in order. -/
def addedUnder (username : String) (h : List Op) : List Conn :=
  h.filterMap fun op =>
    match op with
    | Op.add u conn => if u = username then some conn else none
    | Op.remove _ _ => none

/-- The live connections of `username` after the calls `h`: those added under
the name and not removed since. -/
def liveConns (h : List Op) (username : String) : List Conn :=
  (addedUnder username h).filter fun conn => decide (Op.remove username conn ∉ h)

/-- A notice of the server about a user. -/
inductive Notice where
  | online
  | offline
  deriving DecidableEq, Repr

/-- The notice about `username` that goes with the result `b` of the registry
call `op`: the online notice for an add of the username that returned true,
the offline notice for a remove of the username that returned true.  That the
call sites send exactly these notices is a theorem about `handlerStep` and
`serveDead` below, not part of this definition. -/
def noticeOf (username : String) : Op → Bool → List Notice
  | Op.add u _, b => if u = username ∧ b = true then [Notice.online] else []
  | Op.remove u _, b => if u = username ∧ b = true then [Notice.offline] else []

/-- The notices about `username` caused by the calls `h` with results `bs`,
in order. -/
def notices (username : String) : List Op → List Bool → List Notice
  | op :: h, b :: bs => noticeOf username op b ++ notices username h bs
  | _, _ => []

/-- The strictly alternating sequence online, offline, online, ... of length `n`. -/
def alternation (n : Nat) : List Notice :=
  (List.range n).map fun i => if i % 2 = 0 then Notice.online else Notice.offline

/-! ## The two call sites of the registry -/

/-- A run through one of the two places that call the registry: the handler
of `conn` after it read the login line `line` without error (lines 93-97), or
the event loop after it received the dead-connection event of `username` and
`conn` (lines 110-112). -/
inductive Call where
  | login (line : String) (conn : Conn)
  | dead (username : String) (conn : Conn)
  deriving DecidableEq, Repr

/-- The registry call a call site makes: the handler adds under the trimmed
login line, the event loop removes the pair of the event. -/
def opOf : Call → Op
  | Call.login line conn => Op.add (Trim line "\r\n") conn
  | Call.dead username conn => Op.remove username conn

/-- One call site run as a whole, the send included: for the handler
`handlerStep` from the login phase with its sends put on the channels, for the
event loop `serveDead`. -/
def serveCall (c : ChatServer) : Call → Option ChatServer
  | Call.login line conn =>
    let res := handlerStep c conn Phase.login (okRead line)
    some (res.2.2.foldl send res.1)
  | Call.dead username conn => serveDead c ⟨username, conn⟩

/-- Call sites run one after the other, each as a whole. -/
def serveCalls (c : ChatServer) : List Call → Option ChatServer
  | [] => some c
  | k :: rest =>
    match serveCall c k with
    | none => none
    | some c1 => serveCalls c1 rest

/-- The username a registry call names. -/
def opUser : Op → String
  | Op.add u _ => u
  | Op.remove u _ => u

/-- The message that carries a notice about `username`. -/
def noticeMessage (username : String) : Notice → Message
  | Notice.online => ⟨ServerUsername, onlineText username⟩
  | Notice.offline => ⟨ServerUsername, offlineText username⟩

/-- The messages that carry the notices of the calls `h` with results `bs`,
each call's notice about its own username, in the order of the calls. -/
def sentAll : List Op → List Bool → List Message
  | op :: h, b :: bs =>
    (noticeOf (opUser op) op b).map (noticeMessage (opUser op)) ++ sentAll h bs
  | _, _ => []

/-! ## The call sites statement by statement

In the source the registry call returns, the mutex is released, and only
then the notice is sent on `c.Messages`.  Here the call and the send are two
steps, so that other goroutines can run between them. -/

/-- The server between statements: the `ChatServer` value, the handlers whose
`addUserClient` returned true and whose send of line 96 is still to come (each
with its connection and the message), and the message of line 111 when the
event loop's `deleteUserClient` returned true and its send is still to come. -/
structure NoticeState where
  cs : ChatServer
  handlerNotice : List (Conn × Message)
  loopNotice : Option Message

/-- One statement of a call site.
* `register`: the handler of `conn` trims its login line and calls
  `addUserClient` (lines 93 and 95);
* `sendOnline`: the handler of `conn` performs the send of line 96;
* `delete`: the event loop calls `deleteUserClient` for the event it received
  (line 110);
* `sendOffline`: the event loop performs the send of line 111. -/
inductive NoticeAction where
  | register (line : String) (conn : Conn)
  | sendOnline (conn : Conn)
  | delete (username : String) (conn : Conn)
  | sendOffline

/-- The message the handler of `conn` is about to send, if any. -/
def noticeFor : List (Conn × Message) → Conn → Option Message
  | [], _ => none
  | (x, m) :: rest, conn => if x = conn then some m else noticeFor rest conn

/-- The waiting handler sends without the one of `conn`. -/
def dropNotice (conn : Conn) : List (Conn × Message) → List (Conn × Message)
  | [] => []
  | (x, m) :: rest => if x = conn then rest else (x, m) :: dropNotice conn rest

/-- One statement: `none` when it cannot happen (no send waiting; the event
loop is one goroutine, so it calls `deleteUserClient` again only after its
send) or when `deleteUserClient` panics. -/
def noticeStep (s : NoticeState) : NoticeAction → Option NoticeState
  | NoticeAction.register line conn =>
    let senderName := Trim line "\r\n"
    let res := addUserClient s.cs senderName conn
    some
      { s with
        cs := res.1
        handlerNotice :=
          if res.2 then s.handlerNotice ++ [(conn, ⟨ServerUsername, onlineText senderName⟩)]
          else s.handlerNotice }
  | NoticeAction.sendOnline conn =>
    match noticeFor s.handlerNotice conn with
    | none => none
    | some m =>
      some
        { s with
          cs := send s.cs (Send.message m)
          handlerNotice := dropNotice conn s.handlerNotice }
  | NoticeAction.delete username conn =>
    match s.loopNotice with
    | some _ => none
    | none =>
      match deleteUserClient s.cs username conn with
      | none => none
      | some (c1, deleted) =>
        some
          { s with
            cs := c1
            loopNotice :=
              if deleted then some ⟨ServerUsername, offlineText username⟩ else none }
  | NoticeAction.sendOffline =>
    match s.loopNotice with
    | none => none
    | some m => some { s with cs := send s.cs (Send.message m), loopNotice := none }

/-- The state after a sequence of statements. -/
def noticeRun (s : NoticeState) : List NoticeAction → Option NoticeState
  | [] => some s
  | a :: rest =>
    match noticeStep s a with
    | none => none
    | some s1 => noticeRun s1 rest

/-- The server `c` with no send waiting. -/
def quiet (c : ChatServer) : NoticeState :=
  { cs := c, handlerNotice := [], loopNotice := none }

/-- The notices decided so far: those in the `Messages` queue and those whose
send is still to come. -/
def decided (s : NoticeState) : List Message :=
  s.cs.Messages ++ (s.handlerNotice.map Prod.snd ++ s.loopNotice.toList)

/-- The registry calls among the statements, in order. -/
def callsOf : List NoticeAction → List Op
  | [] => []
  | NoticeAction.register line conn :: rest => Op.add (Trim line "\r\n") conn :: callsOf rest
  | NoticeAction.delete username conn :: rest => Op.remove username conn :: callsOf rest
  | NoticeAction.sendOnline _ :: rest => callsOf rest
  | NoticeAction.sendOffline :: rest => callsOf rest

/-- The registry holds for every username its live connections after the
calls `h`, in the order of their adds, and no entry for a username without
live connections. -/
def Refines (c : ChatServer) (h : List Op) : Prop :=
  ∀ u, entry c u = if liveConns h u = [] then none else some (liveConns h u)

/-! ## Predicates on the registry -/

/-- Every connection occurrence of the registry, entry after entry in the
order of the map, each entry in its own order. -/
def allConns (c : ChatServer) : List Conn :=
  c.UserConnections.entries.flatMap fun e => e.2

/-- Every username key present in `UserConnections` maps to a non-empty
sequence. -/
def NonEmptyEntries (c : ChatServer) : Prop :=
  ∀ e ∈ c.UserConnections.entries, e.2 ≠ []

instance (c : ChatServer) : Decidable (NonEmptyEntries c) :=
  inferInstanceAs (Decidable (∀ e ∈ c.UserConnections.entries, e.2 ≠ []))

/-- A connection appears in at most one entry and at most once within it. -/
def UniqueConns (c : ChatServer) : Prop :=
  (allConns c).Nodup

instance (c : ChatServer) : Decidable (UniqueConns c) :=
  inferInstanceAs (Decidable (allConns c).Nodup)

/-- The `conn.Write` calls among the effects, in order: connection and data. -/
def writesOf : List Effect → List (Conn × String)
  | [] => []
  | Effect.write conn data :: rest => (conn, data) :: writesOf rest
  | Effect.log _ :: rest => writesOf rest

/-- A line as `ReadString` returns it without error: it ends in its first
line feed. -/
def IsLine (line : String) : Prop :=
  line.data.getLast? = some '\n' ∧ '\n' ∉ line.data.dropLast

instance (line : String) : Decidable (IsLine line) :=
  inferInstanceAs (Decidable (line.data.getLast? = some '\n' ∧ '\n' ∉ line.data.dropLast))

/-! ## Facts about the map operations -/

theorem entry_setEntry (c : ChatServer) (u : String) (s : List Conn) :
    entry (setEntry c u s) u = some s := by
  simp [entry, setEntry]

theorem entry_setEntry_ne (c : ChatServer) {u u' : String} (s : List Conn) (h : u' ≠ u) :
    entry (setEntry c u s) u' = entry c u' := by
  simp [entry, setEntry, AList.lookup_insert_ne h]

theorem entry_deleteEntry (c : ChatServer) (u : String) :
    entry (deleteEntry c u) u = none := by
  simp [entry, deleteEntry]

theorem entry_deleteEntry_ne (c : ChatServer) {u u' : String} (h : u' ≠ u) :
    entry (deleteEntry c u) u' = entry c u' := by
  simp [entry, deleteEntry, AList.lookup_erase_ne h]

theorem searchFrom_split (conn : Conn) (s : List Conn) (i : Nat) (h : conn ∈ s) :
    ∃ pre post, s = pre ++ conn :: post ∧ conn ∉ pre ∧
      searchFrom conn s i = some (i + pre.length) := by
  induction s generalizing i with
  | nil => simp at h
  | cons x xs ih =>
    by_cases hx : x = conn
    · exact ⟨[], xs, by simp [hx], by simp, by simp [searchFrom, hx]⟩
    · have hm : conn ∈ xs := by
        rcases List.mem_cons.1 h with h1 | h1
        · exact absurd h1.symm hx
        · exact h1
      obtain ⟨pre, post, h1, h2, h3⟩ := ih (i + 1) hm
      refine ⟨x :: pre, post, by simp [h1], ?_, ?_⟩
      · simp only [List.mem_cons, not_or]
        exact ⟨fun e => hx e.symm, h2⟩
      · simp only [searchFrom, hx, if_false, h3, List.length_cons]
        congr 1
        omega

theorem searchFrom_absent (conn : Conn) (s : List Conn) (i : Nat) (h : conn ∉ s) :
    searchFrom conn s i = none := by
  induction s generalizing i with
  | nil => rfl
  | cons x xs ih =>
    simp only [List.mem_cons, not_or] at h
    have hx : ¬ x = conn := fun e => h.1 e.symm
    simp [searchFrom, hx, ih (i + 1) h.2]

theorem removeAt_split (pre post : List Conn) (conn : Conn) :
    removeAt (pre ++ conn :: post) pre.length = some (pre ++ post) := by
  simp [removeAt]

/-- The removal step of `deleteUserClient` on a sequence that holds `conn`:
the first occurrence of `conn` goes, the rest stays in order. -/
theorem remove_found (s : List Conn) (conn : Conn) (h : conn ∈ s) :
    ∃ pre post, s = pre ++ conn :: post ∧ conn ∉ pre ∧ searchId s conn = pre.length ∧
      removeAt s (searchId s conn) = some (pre ++ post) := by
  obtain ⟨pre, post, h1, h2, h3⟩ := searchFrom_split conn s 0 h
  have hid : searchId s conn = pre.length := by simp [searchId, h3]
  refine ⟨pre, post, h1, h2, hid, ?_⟩
  rw [hid, h1]
  exact removeAt_split pre post conn

/-! ## The registry methods -/

/-- The effect of `addUserClient` on the entries and the channels. -/
theorem addUserClient_effect (c : ChatServer) (u : String) (conn : Conn) :
    ((addUserClient c u conn).2 = true ↔ entry c u = none) ∧
    entry (addUserClient c u conn).1 u = some (connsOf c u ++ [conn]) ∧
    (∀ u', u' ≠ u → entry (addUserClient c u conn).1 u' = entry c u') ∧
    (addUserClient c u conn).1.OpenedConnections = c.OpenedConnections ∧
    (addUserClient c u conn).1.DeadConnections = c.DeadConnections ∧
    (addUserClient c u conn).1.Messages = c.Messages := by
  unfold addUserClient connsOf
  cases h : entry c u with
  | none =>
    refine ⟨by simp, by simp [entry_setEntry], ?_, rfl, rfl, rfl⟩
    intro u' hu
    exact entry_setEntry_ne c _ hu
  | some s =>
    refine ⟨by simp, by simp [entry_setEntry], ?_, rfl, rfl, rfl⟩
    intro u' hu
    exact entry_setEntry_ne c _ hu

/-- C1: `addUserClient(u, c)` returns true exactly when `u` had no entry; after
the call the sequence of `u` is its old sequence (empty when absent) followed by
`c`, the entry of every other username is as before, and so are the channels. -/
theorem addUserClient_spec (c : ChatServer) (u : String) (conn : Conn) :
    ((addUserClient c u conn).2 = true ↔ entry c u = none) ∧
    entry (addUserClient c u conn).1 u = some (connsOf c u ++ [conn]) ∧
    (∀ u', u' ≠ u → entry (addUserClient c u conn).1 u' = entry c u') ∧
    (addUserClient c u conn).1.OpenedConnections = c.OpenedConnections ∧
    (addUserClient c u conn).1.DeadConnections = c.DeadConnections ∧
    (addUserClient c u conn).1.Messages = c.Messages :=
  addUserClient_effect c u conn

/-- A run of C1: bob joins a registry that holds alice. -/
theorem addUserClient_spec_witness :
    entry (addUserClient (setEntry NewChatServer "alice" [1]) "bob" 2).1 "alice" =
      entry (setEntry NewChatServer "alice" [1]) "alice" :=
  (addUserClient_spec (setEntry NewChatServer "alice" [1]) "bob" 2).2.2.1 "alice" (by decide)

/-- The effect of `deleteUserClient` on a sequence that holds the connection. -/
theorem deleteUserClient_found (c : ChatServer) (u : String) (conn : Conn) (s : List Conn)
    (hs : entry c u = some s) (hmem : conn ∈ s) :
    ∃ pre post c1 b, s = pre ++ conn :: post ∧ conn ∉ pre ∧
      deleteUserClient c u conn = some (c1, b) ∧
      (b = true ↔ s = [conn]) ∧
      (b = true → entry c1 u = none) ∧
      (b = false → entry c1 u = some (pre ++ post)) ∧
      (∀ u', u' ≠ u → entry c1 u' = entry c u') ∧
      c1.OpenedConnections = c.OpenedConnections ∧
      c1.DeadConnections = c.DeadConnections ∧
      c1.Messages = c.Messages ∧
      searchId s conn = pre.length := by
  have hc : connsOf c u = s := by simp [connsOf, hs]
  obtain ⟨pre, post, h1, h2, h3, h4⟩ := remove_found s conn hmem
  by_cases he : (pre ++ post).length = 0
  · have hnil : pre = [] ∧ post = [] := by
      simpa [List.length_eq_zero] using he
    refine ⟨pre, post, deleteEntry (setEntry c u (pre ++ post)) u, true, h1, h2, ?_, ?_, ?_, ?_, ?_,
      rfl, rfl, rfl, h3⟩
    · unfold deleteUserClient
      rw [hc, h4]
      exact if_pos he
    · simp [h1, hnil.1, hnil.2]
    · intro _
      exact entry_deleteEntry _ u
    · intro hb
      cases hb
    · intro u' hu
      rw [entry_deleteEntry_ne _ hu, entry_setEntry_ne _ _ hu]
  · refine ⟨pre, post, setEntry c u (pre ++ post), false, h1, h2, ?_, ?_, ?_, ?_, ?_,
      rfl, rfl, rfl, h3⟩
    · unfold deleteUserClient
      rw [hc, h4]
      exact if_neg he
    · constructor
      · intro hb
        cases hb
      · intro hsc
        exfalso
        apply he
        have hl : s.length = 1 := by simp [hsc]
        rw [h1] at hl
        simp only [List.length_append, List.length_cons] at hl ⊢
        omega
    · intro hb
      cases hb
    · intro _
      exact entry_setEntry c u _
    · intro u' hu
      exact entry_setEntry_ne _ _ hu

/-- C2: when `c` occurs in the sequence of `u`, `deleteUserClient(u, c)`
completes, finds the first occurrence of `c`, removes it and nothing else,
keeps the order of the rest, and leaves the other usernames and the channels
alone; it returns true and deletes the entry of `u` exactly when `c` was the
only connection of `u`, and otherwise returns false and keeps the entry. -/
theorem deleteUserClient_present (c : ChatServer) (u : String) (conn : Conn) (s : List Conn)
    (hs : entry c u = some s) (hmem : conn ∈ s) :
    ∃ pre post c1 b, s = pre ++ conn :: post ∧ conn ∉ pre ∧
      deleteUserClient c u conn = some (c1, b) ∧
      (b = true ↔ s = [conn]) ∧
      (b = true → entry c1 u = none) ∧
      (b = false → entry c1 u = some (pre ++ post)) ∧
      (∀ u', u' ≠ u → entry c1 u' = entry c u') ∧
      c1.OpenedConnections = c.OpenedConnections ∧
      c1.DeadConnections = c.DeadConnections ∧
      c1.Messages = c.Messages ∧
      searchId s conn = pre.length :=
  deleteUserClient_found c u conn s hs hmem

/-- A run of C2: alice has the connections 2, 1, 3, 1 and loses connection 1. -/
theorem deleteUserClient_present_witness :
    entry (setEntry NewChatServer "alice" [2, 1, 3, 1]) "alice" = some [2, 1, 3, 1] ∧
    (1 : Conn) ∈ [2, 1, 3, 1] ∧
    ∃ pre post c1 b, [2, 1, 3, 1] = pre ++ (1 : Conn) :: post ∧ (1 : Conn) ∉ pre ∧
      deleteUserClient (setEntry NewChatServer "alice" [2, 1, 3, 1]) "alice" 1 = some (c1, b) ∧
      (b = true ↔ [2, 1, 3, 1] = [(1 : Conn)]) ∧
      (b = true → entry c1 "alice" = none) ∧
      (b = false → entry c1 "alice" = some (pre ++ post)) ∧
      (∀ u', u' ≠ "alice" →
        entry c1 u' = entry (setEntry NewChatServer "alice" [2, 1, 3, 1]) u') ∧
      c1.OpenedConnections = (setEntry NewChatServer "alice" [2, 1, 3, 1]).OpenedConnections ∧
      c1.DeadConnections = (setEntry NewChatServer "alice" [2, 1, 3, 1]).DeadConnections ∧
      c1.Messages = (setEntry NewChatServer "alice" [2, 1, 3, 1]).Messages ∧
      searchId [2, 1, 3, 1] 1 = pre.length :=
  ⟨by decide, by decide,
    deleteUserClient_present (setEntry NewChatServer "alice" [2, 1, 3, 1]) "alice" 1 [2, 1, 3, 1]
      (by decide) (by decide)⟩

/-- C3, as stated, fails: `deleteUserClient` has no case for a pair that is
not present.  With no entry for the username the slice expression panics; with
an entry that lacks the connection the first connection of the entry is
removed, and the result is true when it was the only one. -/
theorem deleteUserClient_absent_eval :
    deleteUserClient NewChatServer "alice" 1 = none ∧
    deleteUserClient (setEntry NewChatServer "alice" [1]) "alice" 2 =
      some (NewChatServer, true) ∧
    deleteUserClient (setEntry NewChatServer "alice" [1, 3]) "alice" 2 =
      some (setEntry NewChatServer "alice" [3], false) := by
  decide

/-! ## Entries and connection occurrences -/

theorem allConns_setEntry (c : ChatServer) (u : String) (s : List Conn) :
    allConns (setEntry c u s) = s ++ allConns (deleteEntry c u) := by
  simp [allConns, setEntry, deleteEntry, AList.insert_entries, AList.erase]

theorem allConns_deleteEntry_setEntry (c : ChatServer) (u : String) (s : List Conn) :
    allConns (deleteEntry (setEntry c u s) u) = allConns (deleteEntry c u) := by
  simp [allConns, setEntry, deleteEntry, AList.insert_entries, AList.erase]

theorem allConns_perm (c : ChatServer) (u : String) :
    (allConns c).Perm (connsOf c u ++ allConns (deleteEntry c u)) := by
  by_cases h : u ∈ c.UserConnections.entries.keys
  · obtain ⟨b, l1, l2, _, h2, h3⟩ := List.exists_of_kerase h
    have hl : entry c u = some b := by
      have : b ∈ c.UserConnections.lookup u := by
        rw [AList.mem_lookup_iff, h2]
        simp
      simpa [entry] using this
    simp only [allConns, connsOf, hl, deleteEntry, AList.erase, h3, Option.getD_some]
    rw [h2]
    simp only [List.flatMap_append, List.flatMap_cons]
    rw [← List.append_assoc, ← List.append_assoc]
    exact List.Perm.append_right _ List.perm_append_comm
  · have hl : entry c u = none := by
      simpa [entry, AList.lookup_eq_none, AList.mem_keys, AList.keys] using h
    simp [allConns, connsOf, hl, deleteEntry, AList.erase, List.kerase_of_not_mem_keys h]

theorem mem_allConns_of_entry (c : ChatServer) (u : String) (s : List Conn) (conn : Conn)
    (hs : entry c u = some s) (h : conn ∈ s) : conn ∈ allConns c := by
  have hm : (⟨u, s⟩ : Sigma fun _ : String => List Conn) ∈ c.UserConnections.entries := by
    rw [← AList.mem_lookup_iff]
    simpa [entry] using hs
  exact List.mem_flatMap.2 ⟨_, hm, h⟩

theorem writesOf_append (a b : List Effect) : writesOf (a ++ b) = writesOf a ++ writesOf b := by
  induction a with
  | nil => rfl
  | cons e rest ih =>
    cases e <;> simp [writesOf, ih]

theorem writesOf_writeConns (writeErr : Conn → Option String) (data : String) (s : List Conn) :
    writesOf (writeConns writeErr data s) = s.map fun conn => (conn, data) := by
  induction s with
  | nil => rfl
  | cons x xs ih =>
    cases h : writeErr x <;> simp [writeConns, writesOf, h, ih]

theorem writesOf_writeUsers (writeErr : Conn → Option String) (data : String)
    (es : List (Sigma fun _ : String => List Conn)) :
    writesOf (writeUsers writeErr data es) =
      (es.flatMap fun e => e.2).map fun conn => (conn, data) := by
  induction es with
  | nil => rfl
  | cons e rest ih =>
    simp [writeUsers, writesOf_append, writesOf_writeConns, ih]

/-! ## The broadcast -/

/-- C5: handling a message writes once to every connection occurrence of the
registry, the connections of the sender included, every time the sender name,
a colon, a blank and the text; this holds whatever writes fail, and the server
state is the same afterwards. -/
theorem serveMessage_spec (c : ChatServer) (writeErr : Conn → Option String) (msg : Message) :
    (serveMessage c writeErr msg).1 = c ∧
    writesOf (serveMessage c writeErr msg).2 =
      (allConns c).map (fun conn => (conn, msg.SenderName ++ ": " ++ msg.Text)) ∧
    (∀ conn, conn ∈ connsOf c msg.SenderName →
      (conn, msg.SenderName ++ ": " ++ msg.Text) ∈ writesOf (serveMessage c writeErr msg).2) := by
  have hw : writesOf (serveMessage c writeErr msg).2 =
      (allConns c).map (fun conn => (conn, msg.SenderName ++ ": " ++ msg.Text)) := by
    simp [serveMessage, writesOf_append, writesOf_writeUsers, writesOf, allConns, formatMessage]
  refine ⟨rfl, hw, ?_⟩
  intro conn hconn
  rw [hw]
  cases hs : entry c msg.SenderName with
  | none => simp [connsOf, hs] at hconn
  | some s =>
    have : conn ∈ s := by simpa [connsOf, hs] using hconn
    exact List.mem_map.2 ⟨conn, mem_allConns_of_entry c _ s conn hs this, rfl⟩

/-- A run of C5: alice sends while her own write fails; both connections are
written to. -/
theorem serveMessage_spec_witness :
    (1 : Conn) ∈ connsOf (setEntry (setEntry NewChatServer "alice" [1]) "bob" [2]) "alice" ∧
    ((1 : Conn), "alice: hello\n") ∈
      writesOf (serveMessage (setEntry (setEntry NewChatServer "alice" [1]) "bob" [2])
        (fun conn => if conn = 1 then some "broken pipe" else none) ⟨"alice", "hello\n"⟩).2 :=
  ⟨by decide,
    (serveMessage_spec (setEntry (setEntry NewChatServer "alice" [1]) "bob" [2])
      (fun conn => if conn = 1 then some "broken pipe" else none) ⟨"alice", "hello\n"⟩).2.2 1
      (by decide)⟩

/-! ## The two invariants of the data model -/

theorem entries_deleteEntry_setEntry (c : ChatServer) (u : String) (s : List Conn) :
    (deleteEntry (setEntry c u s) u).UserConnections.entries =
      (deleteEntry c u).UserConnections.entries := by
  simp [setEntry, deleteEntry, AList.insert_entries, AList.erase]

theorem nonEmpty_deleteEntry (c : ChatServer) (u : String) (h : NonEmptyEntries c) :
    NonEmptyEntries (deleteEntry c u) := by
  intro e he
  exact h e ((List.kerase_sublist u _).subset he)

theorem nonEmpty_setEntry (c : ChatServer) (u : String) (s : List Conn) (h : NonEmptyEntries c)
    (hs : s ≠ []) : NonEmptyEntries (setEntry c u s) := by
  intro e he
  simp only [setEntry, AList.insert_entries, List.mem_cons] at he
  rcases he with he | he
  · rw [he]
    exact hs
  · exact h e ((List.kerase_sublist u _).subset he)

theorem removeAt_perm (s s1 : List Conn) (id : Nat) (h : removeAt s id = some s1) :
    ∃ x, s.get? id = some x ∧ s.Perm (x :: s1) := by
  unfold removeAt at h
  split at h
  · rename_i hlt
    have hid : id < s.length := by omega
    refine ⟨s[id], by simp [List.getElem?_eq_getElem hid], ?_⟩
    have hs1 : s1 = s.take id ++ s.drop (id + 1) := by
      simpa using h.symm
    have hsplit : s = s.take id ++ s[id] :: s.drop (id + 1) := by
      rw [← List.drop_eq_getElem_cons hid, List.take_append_drop]
    rw [hs1]
    exact (List.Perm.of_eq hsplit).trans List.perm_middle
  · cases h

/-- What a completed `deleteUserClient` leaves: the connection occurrences of
before without one of them. -/
theorem allConns_deleteUserClient (c c1 : ChatServer) (u : String) (conn : Conn) (b : Bool)
    (h : deleteUserClient c u conn = some (c1, b)) :
    ∃ x, (allConns c).Perm (x :: allConns c1) := by
  unfold deleteUserClient at h
  split at h
  · cases h
  · rename_i s1 hr
    obtain ⟨x, _, hp⟩ := removeAt_perm _ _ _ hr
    refine ⟨x, (allConns_perm c u).trans ?_⟩
    split at h
    · rename_i hlen
      have hnil : s1 = [] := List.length_eq_zero.1 hlen
      simp only [Option.some.injEq, Prod.mk.injEq] at h
      rw [← h.1, allConns_deleteEntry_setEntry]
      subst hnil
      exact hp.append_right _
    · simp only [Option.some.injEq, Prod.mk.injEq] at h
      rw [← h.1, allConns_setEntry]
      exact hp.append_right _

theorem allConns_addUserClient (c : ChatServer) (u : String) (conn : Conn) :
    (allConns (addUserClient c u conn).1).Perm (conn :: allConns c) := by
  have h1 : allConns (addUserClient c u conn).1 =
      (connsOf c u ++ [conn]) ++ allConns (deleteEntry c u) := by
    unfold addUserClient connsOf
    cases h : entry c u <;> simp [allConns_setEntry]
  rw [h1]
  refine List.Perm.trans ?_ (List.Perm.cons conn (allConns_perm c u).symm)
  rw [List.append_assoc, List.singleton_append]
  exact List.perm_middle

/-- C7: the registry made by `NewChatServer` has no username with an empty
sequence, and neither `addUserClient` nor a `deleteUserClient` that completes
produces one from a registry that has none. -/
theorem nonEmptyEntries_invariant (c : ChatServer) (u : String) (conn : Conn)
    (h : NonEmptyEntries c) :
    NonEmptyEntries NewChatServer ∧
    NonEmptyEntries (addUserClient c u conn).1 ∧
    (∀ c1 b, deleteUserClient c u conn = some (c1, b) → NonEmptyEntries c1) := by
  refine ⟨?_, ?_, ?_⟩
  · intro e he
    cases he
  · unfold addUserClient
    cases entry c u with
    | none => exact nonEmpty_setEntry c u _ h (by simp)
    | some s => exact nonEmpty_setEntry c u _ h (by simp)
  · intro c1 b hd
    unfold deleteUserClient at hd
    split at hd
    · cases hd
    · rename_i s1 _
      split at hd
      · simp only [Option.some.injEq, Prod.mk.injEq] at hd
        rw [← hd.1]
        intro e he
        rw [entries_deleteEntry_setEntry] at he
        exact nonEmpty_deleteEntry c u h e he
      · rename_i hlen
        simp only [Option.some.injEq, Prod.mk.injEq] at hd
        rw [← hd.1]
        exact nonEmpty_setEntry c u s1 h (fun e => hlen (by simp [e]))

/-- A run of C7: alice has two connections, one of them is added to bob and
one of alice's is deleted. -/
theorem nonEmptyEntries_invariant_witness :
    NonEmptyEntries (setEntry NewChatServer "alice" [1, 2]) ∧
    NonEmptyEntries NewChatServer ∧
    NonEmptyEntries (addUserClient (setEntry NewChatServer "alice" [1, 2]) "alice" 2).1 ∧
    (∀ c1 b, deleteUserClient (setEntry NewChatServer "alice" [1, 2]) "alice" 2 = some (c1, b) →
      NonEmptyEntries c1) :=
  ⟨by decide, nonEmptyEntries_invariant (setEntry NewChatServer "alice" [1, 2]) "alice" 2 (by decide)⟩

/-- C8, as stated, fails: the registry does not look for the connection it is
given, so a second `addUserClient` with the same connection under another
username puts the connection into two entries. -/
theorem uniqueConns_counterexample :
    UniqueConns (addUserClient NewChatServer "alice" 1).1 ∧
    ¬ UniqueConns (addUserClient (addUserClient NewChatServer "alice" 1).1 "bob" 1).1 ∧
    entry (addUserClient (addUserClient NewChatServer "alice" 1).1 "bob" 1).1 "alice" = some [1] ∧
    entry (addUserClient (addUserClient NewChatServer "alice" 1).1 "bob" 1).1 "bob" = some [1] := by
  decide

/-- C8, amended: in a registry where every connection occurs at most once,
`addUserClient(u, c)` keeps this exactly when `c` does not occur in the
registry yet, and every `deleteUserClient` that completes keeps it. -/
theorem uniqueConns_preserved (c : ChatServer) (u : String) (conn : Conn) (h : UniqueConns c) :
    (UniqueConns (addUserClient c u conn).1 ↔ conn ∉ allConns c) ∧
    (∀ c1 b, deleteUserClient c u conn = some (c1, b) → UniqueConns c1) := by
  constructor
  · unfold UniqueConns at *
    rw [(allConns_addUserClient c u conn).nodup_iff, List.nodup_cons]
    exact ⟨fun hh => hh.1, fun hh => ⟨hh, h⟩⟩
  · intro c1 b hd
    obtain ⟨x, hp⟩ := allConns_deleteUserClient c c1 u conn b hd
    unfold UniqueConns at *
    exact (List.nodup_cons.1 (hp.nodup_iff.1 h)).2

/-- A run of the amended C8: alice holds connection 1, bob gets connection 2. -/
theorem uniqueConns_preserved_witness :
    UniqueConns (setEntry NewChatServer "alice" [1]) ∧
    (UniqueConns (addUserClient (setEntry NewChatServer "alice" [1]) "bob" 2).1 ↔
      (2 : Conn) ∉ allConns (setEntry NewChatServer "alice" [1])) :=
  ⟨by decide, (uniqueConns_preserved (setEntry NewChatServer "alice" [1]) "bob" 2 (by decide)).1⟩

/-! ## The connection handler -/

theorem inCutset_crlf (ch : Char) : inCutset "\r\n" ch = true ↔ ch = '\r' ∨ ch = '\n' := by
  show (['\r', '\n'].contains ch) = true ↔ _
  simp

theorem inCutset_crlf_false (ch : Char) :
    inCutset "\r\n" ch = false ↔ ch ≠ '\r' ∧ ch ≠ '\n' := by
  rw [← Bool.not_eq_true, inCutset_crlf, not_or]

theorem rdropWhile_split (p : Char → Bool) (l : List Char) :
    ∃ suf, l = l.rdropWhile p ++ suf ∧ ∀ x ∈ suf, p x = true := by
  induction l using List.reverseRecOn with
  | nil => exact ⟨[], by simp, by simp⟩
  | append_singleton l x ih =>
    by_cases hx : p x = true
    · obtain ⟨suf, h1, h2⟩ := ih
      refine ⟨suf ++ [x], ?_, ?_⟩
      · rw [List.rdropWhile_concat_pos p l x hx, ← List.append_assoc, ← h1]
      · intro y hy
        rcases List.mem_append.1 hy with hy | hy
        · exact h2 y hy
        · rw [List.mem_singleton.1 hy]
          exact hx
    · exact ⟨[], by rw [List.rdropWhile_concat_neg p l x hx, List.append_nil], by simp⟩

theorem dropWhile_getLast?_not (p : Char → Bool) (l : List Char) (ch : Char)
    (h : ((l.rdropWhile p).dropWhile p).getLast? = some ch) : p ch = false := by
  have hne : (l.rdropWhile p).dropWhile p ≠ [] := by
    intro e
    rw [e] at h
    cases h
  have hsuf : (l.rdropWhile p).dropWhile p <:+ l.rdropWhile p := List.dropWhile_suffix p
  have hne2 : l.rdropWhile p ≠ [] := by
    intro e
    rw [e] at hne
    exact hne rfl
  have hlast := hsuf.getLast hne
  have hnot := List.rdropWhile_last_not p l hne2
  rw [List.getLast?_eq_getLast _ hne, Option.some.injEq] at h
  rw [← h, hlast]
  simpa using hnot

theorem dropWhile_head_not (p : Char → Bool) (l : List Char)
    (h : ∀ ch, l.head? = some ch → p ch = false) : l.dropWhile p = l := by
  cases l with
  | nil => rfl
  | cons x xs =>
    have hx : p x = false := h x rfl
    simp [List.dropWhile, hx]

/-- C6, as stated, fails: `strings.Trim` trims both ends, so a login line that
begins with a carriage return is registered without it. -/
theorem login_name_counterexample :
    IsLine "\rbob\r\n" ∧
    (handlerStep NewChatServer 1 Phase.login (okRead "\rbob\r\n")).2.1 = Phase.relay "bob" ∧
    entry (handlerStep NewChatServer 1 Phase.login (okRead "\rbob\r\n")).1 "bob" = some [1] ∧
    TrimRight "\rbob\r\n" "\r\n" = "\rbob" ∧
    entry (handlerStep NewChatServer 1 Phase.login (okRead "\rbob\r\n")).1 "\rbob" = none := by
  decide

/-- C6, amended: the username used for registration is the login line without
its leading and its trailing CR/LF characters; the characters between them are
kept as sent, and the name neither begins nor ends with CR or LF.  For a line
that does not begin with CR or LF this is the line with only its trailing
CR/LF characters removed. -/
theorem login_name_spec (c : ChatServer) (conn : Conn) (line : String) :
    (handlerStep c conn Phase.login (okRead line)).2.1 = Phase.relay (Trim line "\r\n") ∧
    (handlerStep c conn Phase.login (okRead line)).1 =
      (addUserClient c (Trim line "\r\n") conn).1 ∧
    (∃ pre suf, line.data = pre ++ (Trim line "\r\n").data ++ suf ∧
      (∀ ch ∈ pre, ch = '\r' ∨ ch = '\n') ∧ (∀ ch ∈ suf, ch = '\r' ∨ ch = '\n')) ∧
    (∀ ch, (Trim line "\r\n").data.head? = some ch → ch ≠ '\r' ∧ ch ≠ '\n') ∧
    (∀ ch, (Trim line "\r\n").data.getLast? = some ch → ch ≠ '\r' ∧ ch ≠ '\n') ∧
    ((∀ ch, line.data.head? = some ch → ch ≠ '\r' ∧ ch ≠ '\n') →
      Trim line "\r\n" = TrimRight line "\r\n") := by
  refine ⟨rfl, rfl, ?_, ?_, ?_, ?_⟩
  · obtain ⟨suf, h1, h2⟩ := rdropWhile_split (inCutset "\r\n") line.data
    refine ⟨(line.data.rdropWhile (inCutset "\r\n")).takeWhile (inCutset "\r\n"), suf, ?_, ?_, ?_⟩
    · show line.data = _ ++ (line.data.rdropWhile (inCutset "\r\n")).dropWhile (inCutset "\r\n") ++ suf
      rw [List.takeWhile_append_dropWhile]
      exact h1
    · intro ch hch
      exact (inCutset_crlf ch).1 (List.mem_takeWhile_imp hch)
    · intro ch hch
      exact (inCutset_crlf ch).1 (h2 ch hch)
  · intro ch hch
    have h := List.head?_dropWhile_not (inCutset "\r\n")
      (line.data.rdropWhile (inCutset "\r\n"))
    have hch1 : ((line.data.rdropWhile (inCutset "\r\n")).dropWhile (inCutset "\r\n")).head? =
        some ch := hch
    rw [hch1] at h
    exact (inCutset_crlf_false ch).1 h
  · intro ch hch
    exact (inCutset_crlf_false ch).1 (dropWhile_getLast?_not (inCutset "\r\n") line.data ch hch)
  · intro hhead
    show String.mk _ = String.mk _
    congr 1
    apply dropWhile_head_not
    intro ch hch
    have hpre : line.data.rdropWhile (inCutset "\r\n") <+: line.data :=
      List.rdropWhile_prefix _ _
    obtain ⟨t, ht⟩ := hpre
    have hl : line.data.head? = some ch := by
      rw [← ht]
      cases hr : line.data.rdropWhile (inCutset "\r\n") with
      | nil => rw [hr] at hch; cases hch
      | cons y ys => rw [hr] at hch; simpa using hch
    exact (inCutset_crlf_false ch).2 (hhead ch hl)

/-- A run of the amended C6: the line the companion client sends for bob. -/
theorem login_name_spec_witness :
    (∀ ch, ("bob\r\n" : String).data.head? = some ch → ch ≠ '\r' ∧ ch ≠ '\n') ∧
    Trim "bob\r\n" "\r\n" = TrimRight "bob\r\n" "\r\n" :=
  ⟨by decide,
    (login_name_spec NewChatServer 1 "bob\r\n").2.2.2.2.2 (by decide)⟩

theorem handler_cons (c : ChatServer) (conn : Conn) (ph : Phase) (r : ReadResult)
    (rs : List ReadResult) :
    handler c conn ph (r :: rs) =
      ((handler (handlerStep c conn ph r).1 conn (handlerStep c conn ph r).2.1 rs).1,
        (handler (handlerStep c conn ph r).1 conn (handlerStep c conn ph r).2.1 rs).2.1,
        (handlerStep c conn ph r).2.2 ++
          (handler (handlerStep c conn ph r).1 conn (handlerStep c conn ph r).2.1 rs).2.2) :=
  rfl

theorem handler_done (c : ChatServer) (conn : Conn) (rs : List ReadResult) :
    handler c conn Phase.done rs = (c, Phase.done, []) := by
  induction rs with
  | nil => rfl
  | cons r rest ih =>
    rw [handler_cons]
    simp only [handlerStep, ih, List.append_nil]

theorem relay_loop_sends (c : ChatServer) (conn : Conn) (u : String) (lines : List String)
    (failed : ReadResult) (hf : failed.err ≠ none) (later : List ReadResult) :
    handler c conn (Phase.relay u) (lines.map okRead ++ failed :: later) =
      (c, Phase.done,
        lines.map (fun l => Send.message ⟨u, l⟩) ++ [Send.dead ⟨u, conn⟩]) := by
  induction lines with
  | nil =>
    cases he : failed.err with
    | none => exact absurd he hf
    | some e =>
      rw [List.map_nil, List.nil_append, handler_cons]
      simp only [handlerStep, he, handler_done, List.map_nil, List.nil_append, List.append_nil]
  | cons l rest ih =>
    rw [List.map_cons, List.cons_append, handler_cons]
    simp only [handlerStep, okRead, ih, List.map_cons, List.cons_append, List.nil_append]

/-- C9: for a connection whose reads give a login line, then the lines
`L1..Ln`, then a failed read, the handler sends the online notice if the
registration was the first of the name, then one message per line under the
username with the text as read, in the order read, then one dead-connection
event for the username and the connection, and nothing for whatever later
reads would give. -/
theorem handler_relays (c : ChatServer) (conn : Conn) (login : String) (lines : List String)
    (failed : ReadResult) (hf : failed.err ≠ none) (later : List ReadResult) :
    handler c conn Phase.login (okRead login :: (lines.map okRead ++ failed :: later)) =
      ((addUserClient c (Trim login "\r\n") conn).1, Phase.done,
        (if (addUserClient c (Trim login "\r\n") conn).2 then
          [Send.message ⟨ServerUsername, Trim login "\r\n" ++ " is online\r\n"⟩] else []) ++
        (lines.map (fun l => Send.message ⟨Trim login "\r\n", l⟩) ++
          [Send.dead ⟨Trim login "\r\n", conn⟩])) := by
  rw [handler_cons]
  simp only [handlerStep, okRead, relay_loop_sends _ conn _ lines failed hf later, onlineText]

/-- A run of C9: bob logs in first, sends two lines, and the read after them
fails although more data is there. -/
theorem handler_relays_witness :
    (⟨"par", some "EOF"⟩ : ReadResult).err ≠ none ∧
    handler NewChatServer 1 Phase.login
        (okRead "bob\r\n" :: (["hi\n", "there\r\n"].map okRead ++
          ⟨"par", some "EOF"⟩ :: [okRead "late\n"])) =
      (setEntry NewChatServer "bob" [1], Phase.done,
        [Send.message ⟨"server", "bob is online\r\n"⟩, Send.message ⟨"bob", "hi\n"⟩,
          Send.message ⟨"bob", "there\r\n"⟩, Send.dead ⟨"bob", 1⟩]) :=
  ⟨by decide,
    handler_relays NewChatServer 1 "bob\r\n" ["hi\n", "there\r\n"] ⟨"par", some "EOF"⟩
      (by decide) [okRead "late\n"]⟩

/-! ## Histories of registry calls -/

theorem wellFormed_concat (h : List Op) (op : Op) :
    WellFormed (h ++ [op]) ↔ WellFormed h ∧ okAfter h op = true := by
  simp [WellFormed, okHistory, and_comm]

theorem wellFormed_of_append (a b : List Op) (h : WellFormed (a ++ b)) : WellFormed a := by
  induction b using List.reverseRecOn with
  | nil => simpa using h
  | append_singleton b op ih =>
    rw [← List.append_assoc, wellFormed_concat] at h
    exact ih h.1

/-- Well-formedness in the words of the calls themselves: every call of the
sequence is allowed after the calls before it. -/
theorem wellFormed_iff (h : List Op) :
    WellFormed h ↔ ∀ pre op post, h = pre ++ op :: post → okAfter pre op = true := by
  constructor
  · intro hwf pre op post hsplit
    have h1 : WellFormed (pre ++ [op]) := by
      apply wellFormed_of_append (pre ++ [op]) post
      rw [List.append_assoc, List.singleton_append, ← hsplit]
      exact hwf
    exact ((wellFormed_concat pre op).1 h1).2
  · intro hall
    induction h using List.reverseRecOn with
    | nil => rfl
    | append_singleton h op ih =>
      rw [wellFormed_concat]
      refine ⟨ih ?_, hall h op [] rfl⟩
      intro pre o post hsplit
      exact hall pre o (post ++ [op]) (by rw [hsplit, List.append_assoc, List.cons_append])

theorem runOps_cons_some (c c1 c2 : ChatServer) (op : Op) (rest : List Op) (b1 : Bool)
    (bs : List Bool) (h1 : applyOp c op = some (c1, b1)) (h2 : runOps c1 rest = some (c2, bs)) :
    runOps c (op :: rest) = some (c2, b1 :: bs) := by
  simp [runOps, h1, h2]

theorem runOps_cons_inv (c c2 : ChatServer) (op : Op) (rest : List Op) (bs : List Bool)
    (h : runOps c (op :: rest) = some (c2, bs)) :
    ∃ c1 b1 bs1, applyOp c op = some (c1, b1) ∧ runOps c1 rest = some (c2, bs1) ∧
      bs = b1 :: bs1 := by
  simp only [runOps] at h
  split at h
  · cases h
  · rename_i c1 b1 h1
    split at h
    · cases h
    · rename_i c3 bs3 h3
      simp only [Option.some.injEq, Prod.mk.injEq] at h
      refine ⟨c1, b1, bs3, h1, ?_, h.2.symm⟩
      rw [h3, h.1]

theorem runOps_append_some (c c1 c2 : ChatServer) (a b : List Op) (bs1 bs2 : List Bool)
    (h1 : runOps c a = some (c1, bs1)) (h2 : runOps c1 b = some (c2, bs2)) :
    runOps c (a ++ b) = some (c2, bs1 ++ bs2) := by
  induction a generalizing c bs1 with
  | nil =>
    simp only [runOps, Option.some.injEq, Prod.mk.injEq] at h1
    rw [← h1.2, h1.1]
    simpa using h2
  | cons op rest ih =>
    obtain ⟨c3, b3, bs3, e1, e2, e3⟩ := runOps_cons_inv c c1 op rest bs1 h1
    rw [e3]
    exact runOps_cons_some c c3 c2 op (rest ++ b) b3 (bs3 ++ bs2) e1 (ih c3 bs3 e2)

theorem runOps_append_inv (c c2 : ChatServer) (a b : List Op) (bs : List Bool)
    (h : runOps c (a ++ b) = some (c2, bs)) :
    ∃ c1 bs1 bs2, runOps c a = some (c1, bs1) ∧ runOps c1 b = some (c2, bs2) ∧
      bs = bs1 ++ bs2 := by
  induction a generalizing c bs with
  | nil => exact ⟨c, [], bs, rfl, by simpa using h, rfl⟩
  | cons op rest ih =>
    obtain ⟨c3, b3, bs3, e1, e2, e3⟩ := runOps_cons_inv c c2 op (rest ++ b) bs h
    obtain ⟨c1, bs1, bs2, f1, f2, f3⟩ := ih c3 bs3 e2
    exact ⟨c1, b3 :: bs1, bs2, runOps_cons_some c c3 c1 op rest b3 bs1 e1 f1, f2, by
      rw [e3, f3]
      rfl⟩

theorem runOps_length (c c1 : ChatServer) (h : List Op) (bs : List Bool)
    (hr : runOps c h = some (c1, bs)) : bs.length = h.length := by
  induction h generalizing c bs with
  | nil =>
    simp only [runOps, Option.some.injEq, Prod.mk.injEq] at hr
    rw [← hr.2]
    rfl
  | cons op rest ih =>
    obtain ⟨c3, b3, bs3, _, e2, e3⟩ := runOps_cons_inv c c1 op rest bs hr
    rw [e3, List.length_cons, List.length_cons, ih c3 bs3 e2]

theorem mem_addedConns (h : List Op) (x : Conn) : x ∈ addedConns h ↔ ∃ u, Op.add u x ∈ h := by
  unfold addedConns
  rw [List.mem_filterMap]
  constructor
  · rintro ⟨op, hop, he⟩
    cases op with
    | add u y =>
      simp only [Option.some.injEq] at he
      exact ⟨u, he ▸ hop⟩
    | remove u y => cases he
  · rintro ⟨u, hu⟩
    exact ⟨Op.add u x, hu, rfl⟩

theorem mem_removedConns (h : List Op) (x : Conn) :
    x ∈ removedConns h ↔ ∃ u, Op.remove u x ∈ h := by
  unfold removedConns
  rw [List.mem_filterMap]
  constructor
  · rintro ⟨op, hop, he⟩
    cases op with
    | add u y => cases he
    | remove u y =>
      simp only [Option.some.injEq] at he
      exact ⟨u, he ▸ hop⟩
  · rintro ⟨u, hu⟩
    exact ⟨Op.remove u x, hu, rfl⟩

theorem mem_addedUnder (h : List Op) (u : String) (x : Conn) :
    x ∈ addedUnder u h ↔ Op.add u x ∈ h := by
  unfold addedUnder
  rw [List.mem_filterMap]
  constructor
  · rintro ⟨op, hop, he⟩
    cases op with
    | add v y =>
      by_cases hv : v = u
      · simp only [hv, if_true, Option.some.injEq] at he
        rw [← he, ← hv]
        exact hop
      · simp [hv] at he
    | remove v y => cases he
  · intro hu
    exact ⟨Op.add u x, hu, by simp⟩

theorem okAfter_add (h : List Op) (u : String) (x : Conn) :
    okAfter h (Op.add u x) = true ↔ x ∉ addedConns h := by
  simp [okAfter]

theorem okAfter_remove (h : List Op) (u : String) (x : Conn) :
    okAfter h (Op.remove u x) = true ↔ Op.add u x ∈ h ∧ x ∉ removedConns h := by
  simp [okAfter]

/-- In a well-formed history a removed connection was added. -/
theorem removed_was_added (h : List Op) (hwf : WellFormed h) (u : String) (x : Conn)
    (hx : Op.remove u x ∈ h) : x ∈ addedConns h := by
  induction h using List.reverseRecOn with
  | nil => cases hx
  | append_singleton h op ih =>
    rw [wellFormed_concat] at hwf
    rw [mem_addedConns]
    rcases List.mem_append.1 hx with hx | hx
    · obtain ⟨v, hv⟩ := (mem_addedConns h x).1 (ih hwf.1 hx)
      exact ⟨v, List.mem_append_left _ hv⟩
    · rw [List.mem_singleton] at hx
      rw [← hx, okAfter_remove] at hwf
      exact ⟨u, List.mem_append_left _ hwf.2.1⟩

theorem addedUnder_nodup (h : List Op) (hwf : WellFormed h) (u : String) :
    (addedUnder u h).Nodup := by
  induction h using List.reverseRecOn with
  | nil => simp [addedUnder]
  | append_singleton h op ih =>
    rw [wellFormed_concat] at hwf
    have ih1 := ih hwf.1
    cases op with
    | add v y =>
      by_cases hv : v = u
      · have hy : y ∉ addedUnder u h := by
          intro hmem
          rw [mem_addedUnder] at hmem
          exact (okAfter_add h v y).1 hwf.2 ((mem_addedConns h y).2 ⟨u, hmem⟩)
        have : addedUnder u (h ++ [Op.add v y]) = addedUnder u h ++ [y] := by
          simp [addedUnder, List.filterMap_append, hv]
        rw [this]
        exact List.Nodup.append ih1 (List.nodup_singleton y) (by simpa using hy)
      · have : addedUnder u (h ++ [Op.add v y]) = addedUnder u h := by
          simp [addedUnder, List.filterMap_append, hv]
        rw [this]
        exact ih1
    | remove v y =>
      have : addedUnder u (h ++ [Op.remove v y]) = addedUnder u h := by
        simp [addedUnder, List.filterMap_append]
      rw [this]
      exact ih1

theorem liveConns_nodup (h : List Op) (hwf : WellFormed h) (u : String) :
    (liveConns h u).Nodup :=
  (addedUnder_nodup h hwf u).filter _

theorem mem_liveConns (h : List Op) (u : String) (x : Conn) :
    x ∈ liveConns h u ↔ Op.add u x ∈ h ∧ Op.remove u x ∉ h := by
  simp [liveConns, mem_addedUnder]

theorem liveConns_add (h : List Op) (u : String) (x : Conn)
    (hwf : WellFormed (h ++ [Op.add u x])) (v : String) :
    liveConns (h ++ [Op.add u x]) v =
      if v = u then liveConns h u ++ [x] else liveConns h v := by
  rw [wellFormed_concat] at hwf
  have hx : Op.remove u x ∉ h := fun hm =>
    (okAfter_add h u x).1 hwf.2 (removed_was_added h hwf.1 u x hm)
  by_cases hv : v = u
  · subst hv
    simp [liveConns, addedUnder, List.filterMap_append, List.filter_append, hx]
  · have hv2 : ¬ u = v := fun e => hv e.symm
    simp [liveConns, addedUnder, List.filterMap_append, hv, hv2]

theorem liveConns_remove (h : List Op) (u : String) (x : Conn)
    (hwf : WellFormed (h ++ [Op.remove u x])) (v : String) :
    liveConns (h ++ [Op.remove u x]) v =
      if v = u then (liveConns h u).erase x else liveConns h v := by
  rw [wellFormed_concat] at hwf
  by_cases hv : v = u
  · subst hv
    rw [if_pos rfl, (liveConns_nodup h hwf.1 v).erase_eq_filter x]
    simp only [liveConns, addedUnder, List.filterMap_append, List.filterMap_cons,
      List.filterMap_nil, List.append_nil, List.filter_filter]
    apply List.filter_congr
    intro y _
    by_cases hy : y = x <;> simp [hy]
  · simp [liveConns, addedUnder, List.filterMap_append, hv]

theorem remove_is_live (h : List Op) (u : String) (x : Conn)
    (hwf : WellFormed (h ++ [Op.remove u x])) : x ∈ liveConns h u := by
  rw [wellFormed_concat, okAfter_remove] at hwf
  rw [mem_liveConns]
  exact ⟨hwf.2.1, fun hm => hwf.2.2 ((mem_removedConns h x).2 ⟨u, hm⟩)⟩

theorem refines_add (c : ChatServer) (h : List Op) (u : String) (x : Conn)
    (hr : Refines c h) (hwf : WellFormed (h ++ [Op.add u x])) :
    Refines (addUserClient c u x).1 (h ++ [Op.add u x]) ∧
    ((addUserClient c u x).2 = true ↔ liveConns h u = []) := by
  obtain ⟨h1, h2, h3, _⟩ := addUserClient_effect c u x
  have hu := hr u
  have hconns : connsOf c u = liveConns h u := by
    unfold connsOf
    rw [hu]
    by_cases hl : liveConns h u = []
    · simp [hl]
    · simp [hl]
  constructor
  · intro v
    rw [liveConns_add h u x hwf v]
    by_cases hv : v = u
    · subst hv
      rw [if_pos rfl, h2, hconns]
      simp
    · rw [if_neg hv, h3 v hv]
      exact hr v
  · rw [h1, hu]
    by_cases hl : liveConns h u = []
    · simp [hl]
    · simp [hl]

theorem refines_remove (c : ChatServer) (h : List Op) (u : String) (x : Conn)
    (hr : Refines c h) (hwf : WellFormed (h ++ [Op.remove u x])) :
    ∃ c1 b, deleteUserClient c u x = some (c1, b) ∧
      Refines c1 (h ++ [Op.remove u x]) ∧ (b = true ↔ (liveConns h u).length = 1) := by
  have hx := remove_is_live h u x hwf
  have hne : liveConns h u ≠ [] := List.ne_nil_of_mem hx
  have hu : entry c u = some (liveConns h u) := by
    rw [hr u, if_neg hne]
  obtain ⟨pre, post, c1, b, e1, e2, e3, e4, e5, e6, e7, _⟩ :=
    deleteUserClient_found c u x (liveConns h u) hu hx
  have herase : (liveConns h u).erase x = pre ++ post := by
    rw [e1, List.erase_append_right _ e2, List.erase_cons_head]
  have hlen : (liveConns h u).length = 1 ↔ liveConns h u = [x] := by
    constructor
    · intro hl
      rw [e1] at hl ⊢
      simp only [List.length_append, List.length_cons] at hl
      have hp : pre = [] := List.length_eq_zero.1 (by omega)
      have hq : post = [] := List.length_eq_zero.1 (by omega)
      rw [hp, hq]
      rfl
    · intro hl
      rw [hl]
      rfl
  refine ⟨c1, b, e3, ?_, e4.trans hlen.symm⟩
  intro v
  rw [liveConns_remove h u x hwf v]
  by_cases hv : v = u
  · subst hv
    rw [if_pos rfl, herase]
    cases b with
    | true =>
      have hs := e4.1 rfl
      rw [e1] at hs
      have hnil : pre ++ post = [] := by
        cases pre with
        | nil => simpa using hs
        | cons p ps =>
          simp only [List.cons_append, List.cons.injEq] at hs
          cases ps <;> simp at hs
      rw [e5 rfl, if_pos hnil]
    | false =>
      have hnn : pre ++ post ≠ [] := by
        intro hnil
        have hp : pre = [] := (List.append_eq_nil.1 hnil).1
        have hq : post = [] := (List.append_eq_nil.1 hnil).2
        have : liveConns h v = [x] := by rw [e1, hp, hq]; rfl
        have := e4.2 this
        cases this
      rw [e6 rfl, if_neg hnn]
  · rw [if_neg hv, e7 v hv]
    exact hr v

theorem notices_concat (u : String) (h : List Op) (bs : List Bool) (op : Op) (b : Bool)
    (hl : bs.length = h.length) :
    notices u (h ++ [op]) (bs ++ [b]) = notices u h bs ++ noticeOf u op b := by
  induction h generalizing bs with
  | nil =>
    have : bs = [] := List.length_eq_zero.1 hl
    subst this
    simp [notices]
  | cons o rest ih =>
    cases bs with
    | nil => simp at hl
    | cons b0 bs0 =>
      simp only [List.length_cons, Nat.add_right_cancel_iff] at hl
      show noticeOf u o b0 ++ notices u (rest ++ [op]) (bs0 ++ [b]) = _
      rw [ih bs0 hl]
      simp only [notices, List.append_assoc]

theorem alternation_succ (n : Nat) :
    alternation (n + 1) =
      alternation n ++ [if n % 2 = 0 then Notice.online else Notice.offline] := by
  simp [alternation, List.range_succ]

/-- A well-formed history runs without a panic; afterwards the registry holds
the live connections, and the notices about each username alternate and end
with the online notice exactly when the username has live connections. -/
theorem history_run (h : List Op) (hwf : WellFormed h) :
    ∃ c bs, runOps NewChatServer h = some (c, bs) ∧ Refines c h ∧
      ∀ u, notices u h bs = alternation (notices u h bs).length ∧
        ((notices u h bs).length % 2 = 0 ↔ liveConns h u = []) := by
  induction h using List.reverseRecOn with
  | nil =>
    refine ⟨NewChatServer, [], rfl, ?_, ?_⟩
    · intro u
      simp [liveConns, addedUnder, entry, NewChatServer]
    · intro u
      simp [notices, alternation, liveConns, addedUnder]
  | append_singleton h op ih =>
    have hwf0 := (wellFormed_concat h op).1 hwf
    obtain ⟨c, bs, hrun, href, hnot⟩ := ih hwf0.1
    have hlen := runOps_length _ _ _ _ hrun
    cases op with
    | add v x =>
      obtain ⟨hr1, hb⟩ := refines_add c h v x href hwf
      refine ⟨(addUserClient c v x).1, bs ++ [(addUserClient c v x).2], ?_, hr1, ?_⟩
      · exact runOps_append_some _ c _ h [Op.add v x] bs [_] hrun (by simp [runOps, applyOp])
      · intro u
        obtain ⟨hn1, hn2⟩ := hnot u
        rw [notices_concat u h bs _ _ hlen, liveConns_add h v x hwf u]
        by_cases hcond : v = u ∧ (addUserClient c v x).2 = true
        · obtain ⟨hv, hbt⟩ := hcond
          subst hv
          have hlive := hb.1 hbt
          have heven := hn2.2 hlive
          simp only [noticeOf, hbt, and_self, if_true, List.length_append,
            List.length_singleton]
          rw [alternation_succ, ← hn1, if_pos heven]
          refine ⟨rfl, ?_⟩
          simp
          omega
        · have hno : noticeOf u (Op.add v x) (addUserClient c v x).2 = [] := by
            simp only [noticeOf, hcond, if_false]
          rw [hno, List.append_nil]
          refine ⟨hn1, ?_⟩
          by_cases hv : u = v
          · subst hv
            have hbf : ¬ (addUserClient c u x).2 = true := fun e => hcond ⟨rfl, e⟩
            have hlive : liveConns h u ≠ [] := fun e => hbf (hb.2 e)
            rw [if_pos rfl]
            simp [hn2, hlive]
          · rw [if_neg hv]
            exact hn2
    | remove v x =>
      obtain ⟨c1, b, hd, hr1, hb⟩ := refines_remove c h v x href hwf
      have hx := remove_is_live h v x hwf
      refine ⟨c1, bs ++ [b], ?_, hr1, ?_⟩
      · exact runOps_append_some _ c _ h [Op.remove v x] bs [b] hrun
          (by simp [runOps, applyOp, hd])
      · intro u
        obtain ⟨hn1, hn2⟩ := hnot u
        rw [notices_concat u h bs _ _ hlen, liveConns_remove h v x hwf u]
        by_cases hcond : v = u ∧ b = true
        · obtain ⟨hv, hbt⟩ := hcond
          subst hv
          have hl1 := hb.1 hbt
          have hlive : liveConns h v ≠ [] := List.ne_nil_of_mem hx
          have hodd : ¬ (notices v h bs).length % 2 = 0 := fun e => hlive (hn2.1 e)
          simp only [noticeOf, hbt, and_self, if_true, List.length_append,
            List.length_singleton]
          rw [alternation_succ, ← hn1, if_neg hodd]
          refine ⟨rfl, ?_⟩
          have he : (liveConns h v).erase x = [] :=
            List.length_eq_zero.1 (by rw [List.length_erase_of_mem hx, hl1])
          simp [he]
          omega
        · have hno : noticeOf u (Op.remove v x) b = [] := by
            simp only [noticeOf, hcond, if_false]
          rw [hno, List.append_nil]
          refine ⟨hn1, ?_⟩
          by_cases hv : u = v
          · subst hv
            have hbf : ¬ b = true := fun e => hcond ⟨rfl, e⟩
            have hl1 : ¬ (liveConns h u).length = 1 := fun e => hbf (hb.2 e)
            have hlive : liveConns h u ≠ [] := List.ne_nil_of_mem hx
            have hpos : 0 < (liveConns h u).length := List.length_pos.2 hlive
            have hne : (liveConns h u).erase x ≠ [] := by
              intro e
              have hz := congrArg List.length e
              rw [List.length_erase_of_mem hx] at hz
              simp only [List.length_nil] at hz
              omega
            rw [if_pos rfl]
            simp [hn2, hlive, hne]
          · rw [if_neg hv]
            exact hn2

/-! ## The notices -/

/-- The results of a well-formed sequence of registry calls from the empty
registry: no call panics, an add returns true exactly when its username had no
live connection, a remove exactly when it had one, and per username the
notices that go with the results alternate. -/
theorem results_by_live_count (h : List Op) (hwf : WellFormed h) :
    ∃ c bs, runOps NewChatServer h = some (c, bs) ∧
      (∀ pre op post, h = pre ++ op :: post →
        ∃ c1 bs1 c2 b, runOps NewChatServer pre = some (c1, bs1) ∧
          applyOp c1 op = some (c2, b) ∧ bs.get? pre.length = some b ∧
          (∀ u x, op = Op.add u x → (b = true ↔ (liveConns pre u).length = 0)) ∧
          (∀ u x, op = Op.remove u x → (b = true ↔ (liveConns pre u).length = 1))) ∧
      (∀ u, notices u h bs = alternation (notices u h bs).length) := by
  obtain ⟨c, bs, hrun, _, hnot⟩ := history_run h hwf
  refine ⟨c, bs, hrun, ?_, fun u => (hnot u).1⟩
  intro pre op post hsplit
  have hwf1 : WellFormed (pre ++ [op]) := by
    apply wellFormed_of_append (pre ++ [op]) post
    rw [List.append_assoc, List.singleton_append, ← hsplit]
    exact hwf
  rw [hsplit] at hrun
  obtain ⟨c1, bs1, bs2, e1, e2, e3⟩ := runOps_append_inv _ _ _ _ _ hrun
  obtain ⟨c2, b, bs3, f1, _, f3⟩ := runOps_cons_inv _ _ _ _ _ e2
  obtain ⟨c1', bs1', g1, href, _⟩ := history_run pre ((wellFormed_concat pre op).1 hwf1).1
  have hc : c1' = c1 := by
    rw [g1] at e1
    simp only [Option.some.injEq, Prod.mk.injEq] at e1
    exact e1.1
  subst hc
  have hl := runOps_length _ _ _ _ e1
  refine ⟨c1', bs1, c2, b, e1, f1, ?_, ?_, ?_⟩
  · rw [e3, f3, ← hl, List.get?_eq_getElem?, List.getElem?_append_right (Nat.le_refl _)]
    simp
  · intro u x hop
    subst hop
    have hb := (refines_add c1' pre u x href hwf1).2
    simp only [applyOp, Option.some.injEq] at f1
    have hbb : (addUserClient c1' u x).2 = b := by rw [f1]
    rw [hbb] at hb
    rw [List.length_eq_zero]
    exact hb
  · intro u x hop
    subst hop
    obtain ⟨c3, b3, hd, _, hb⟩ := refines_remove c1' pre u x href hwf1
    simp only [applyOp, hd, Option.some.injEq, Prod.mk.injEq] at f1
    rw [← f1.2]
    exact hb

/-! ## The invariant of the server -/

theorem mem_of_phaseOf (hs : List (Conn × Phase)) (conn : Conn) (ph : Phase)
    (h : phaseOf hs conn = some ph) : (conn, ph) ∈ hs := by
  induction hs with
  | nil => cases h
  | cons x rest ih =>
    obtain ⟨y, q⟩ := x
    by_cases hy : y = conn
    · simp only [phaseOf, hy, if_true, Option.some.injEq] at h
      rw [hy, h]
      exact List.mem_cons_self _ _
    · simp only [phaseOf, hy, if_false] at h
      exact List.mem_cons_of_mem _ (ih h)

theorem dropHandler_sublist (conn : Conn) (hs : List (Conn × Phase)) :
    (dropHandler conn hs).Sublist hs := by
  induction hs with
  | nil => exact List.Sublist.refl _
  | cons x rest ih =>
    obtain ⟨y, q⟩ := x
    by_cases hy : y = conn
    · simp only [dropHandler, hy, if_true]
      exact List.sublist_cons_self _ _
    · simp only [dropHandler, hy, if_false]
      exact ih.cons₂ _

theorem dropHandler_perm (hs : List (Conn × Phase)) (conn : Conn) (ph : Phase)
    (h : phaseOf hs conn = some ph) : hs.Perm ((conn, ph) :: dropHandler conn hs) := by
  induction hs with
  | nil => cases h
  | cons x rest ih =>
    obtain ⟨y, q⟩ := x
    by_cases hy : y = conn
    · simp only [phaseOf, hy, if_true, Option.some.injEq] at h
      simp only [dropHandler, hy, if_true, h]
      exact List.Perm.refl _
    · simp only [phaseOf, hy, if_false] at h
      simp only [dropHandler, hy, if_false]
      exact ((ih h).cons (y, q)).trans (List.Perm.swap _ _ _)

theorem connsOf_congr (c c1 : ChatServer) (u : String)
    (h : c1.UserConnections = c.UserConnections) : connsOf c1 u = connsOf c u := by
  simp [connsOf, entry, h]

theorem entry_of_mem_connsOf (c : ChatServer) (u : String) (x : Conn) (h : x ∈ connsOf c u) :
    entry c u = some (connsOf c u) := by
  unfold connsOf at h ⊢
  cases he : entry c u with
  | none => simp [he] at h
  | some s => simp

theorem connsOf_addUserClient (c : ChatServer) (u v : String) (x y : Conn)
    (h : y ∈ connsOf c v) : y ∈ connsOf (addUserClient c u x).1 v := by
  obtain ⟨_, h2, h3, _⟩ := addUserClient_effect c u x
  by_cases hv : v = u
  · subst hv
    simp only [connsOf, h2, Option.getD_some]
    exact List.mem_append_left _ h
  · simp only [connsOf, h3 v hv]
    exact h

theorem connsOf_addUserClient_self (c : ChatServer) (u : String) (x : Conn) :
    x ∈ connsOf (addUserClient c u x).1 u := by
  obtain ⟨_, h2, _⟩ := addUserClient_effect c u x
  simp [connsOf, h2]

/-- A `deleteUserClient` for a registered pair: it completes, the sequence of
the username loses the first occurrence of the connection, and every other
connection stays where it is. -/
theorem deleteUserClient_registered (c : ChatServer) (u : String) (x : Conn)
    (h : x ∈ connsOf c u) :
    ∃ pre post c1 b, connsOf c u = pre ++ x :: post ∧ x ∉ pre ∧
      deleteUserClient c u x = some (c1, b) ∧ connsOf c1 u = pre ++ post ∧
      (∀ v y, y ≠ x → y ∈ connsOf c v → y ∈ connsOf c1 v) ∧
      c1.OpenedConnections = c.OpenedConnections ∧
      c1.DeadConnections = c.DeadConnections ∧
      c1.Messages = c.Messages ∧
      searchId (connsOf c u) x = pre.length := by
  obtain ⟨pre, post, c1, b, e1, e2, e3, e4, e5, e6, e7, e8⟩ :=
    deleteUserClient_found c u x (connsOf c u) (entry_of_mem_connsOf c u x h) h
  have hu : connsOf c1 u = pre ++ post := by
    cases b with
    | true =>
      have hs := e4.1 rfl
      rw [e1] at hs
      have hnil : pre ++ post = [] := by
        cases pre with
        | nil => simpa using hs
        | cons p ps =>
          simp only [List.cons_append, List.cons.injEq] at hs
          cases ps <;> simp at hs
      simp [connsOf, e5 rfl, hnil]
    | false => simp [connsOf, e6 rfl]
  refine ⟨pre, post, c1, b, e1, e2, e3, hu, ?_, e8⟩
  intro v y hy hmem
  by_cases hv : v = u
  · subst hv
    rw [hu]
    rw [e1] at hmem
    simp only [List.mem_append, List.mem_cons] at hmem ⊢
    rcases hmem with hm | hm | hm
    · exact Or.inl hm
    · exact absurd hm hy
    · exact Or.inr hm
  · simp only [connsOf, e7 v hv]
    exact hmem

theorem inv_init : ServerInv initState := by
  refine ⟨?_, ?_, ?_, ?_⟩
  · simp [liveIds, initState, NewChatServer]
  · simp [liveIds, initState, NewChatServer]
  · intro conn u h
    cases h
  · intro d h
    cases h

theorem inv_accept (s s1 : ServerState) (conn : Conn) (hinv : ServerInv s)
    (hstep : step s (Action.accept conn) = some s1) : ServerInv s1 := by
  obtain ⟨h1, h2, h3, h4⟩ := hinv
  simp only [step] at hstep
  split at hstep
  · cases hstep
  · rename_i hfresh
    simp only [Option.some.injEq] at hstep
    subst hstep
    have hnew : conn ∉ liveIds s := fun hm => hfresh (h2 conn hm)
    have hp : ((s.cs.OpenedConnections ++ [conn]) ++
        (s.handlers.map Prod.fst ++
          s.cs.DeadConnections.map UserConnection.Connection)).Perm (conn :: liveIds s) := by
      unfold liveIds
      rw [List.append_assoc, List.singleton_append]
      exact List.perm_middle
    refine ⟨?_, ?_, h3, h4⟩
    · exact hp.nodup_iff.2 (List.nodup_cons.2 ⟨hnew, h1⟩)
    · intro x hx
      rcases List.mem_cons.1 (hp.mem_iff.1 hx) with hx | hx
      · rw [hx]
        exact List.mem_cons_self _ _
      · exact List.mem_cons_of_mem _ (h2 x hx)

theorem inv_spawn (s s1 : ServerState) (hinv : ServerInv s)
    (hstep : step s Action.spawn = some s1) : ServerInv s1 := by
  obtain ⟨h1, h2, h3, h4⟩ := hinv
  simp only [step] at hstep
  split at hstep
  · cases hstep
  · rename_i conn rest hopen
    simp only [Option.some.injEq] at hstep
    subst hstep
    have hp : (liveIds s).Perm
        (rest ++ (conn :: s.handlers.map Prod.fst ++
          s.cs.DeadConnections.map UserConnection.Connection)) := by
      unfold liveIds
      rw [hopen]
      exact List.perm_middle.symm
    refine ⟨?_, ?_, ?_, h4⟩
    · exact hp.nodup_iff.1 h1
    · intro x hx
      exact h2 x (hp.mem_iff.2 hx)
    · intro c u hm
      simp only [List.mem_cons, Prod.mk.injEq] at hm
      rcases hm with hm | hm
      · cases hm.2
      · exact h3 c u hm

theorem inv_broadcast (s s1 : ServerState) (writeErr : Conn → Option String)
    (hinv : ServerInv s) (hstep : step s (Action.broadcast writeErr) = some s1) :
    ServerInv s1 := by
  obtain ⟨h1, h2, h3, h4⟩ := hinv
  simp only [step] at hstep
  split at hstep
  · cases hstep
  · simp only [Option.some.injEq] at hstep
    subst hstep
    exact ⟨h1, h2, h3, h4⟩

theorem perm_third (a b r : List Conn) (x : Conn) :
    (a ++ (b ++ x :: r)).Perm (x :: (a ++ (b ++ r))) := by
  rw [← List.append_assoc, ← List.append_assoc]
  exact List.perm_middle

theorem inv_reap_core (s : ServerState) (d : UserConnection) (rest : List UserConnection)
    (hinv : ServerInv s) (hdead : s.cs.DeadConnections = d :: rest) (c1 : ChatServer)
    (ho : c1.OpenedConnections = s.cs.OpenedConnections) (hd : c1.DeadConnections = rest)
    (hk : ∀ v y, y ≠ d.Connection → y ∈ connsOf s.cs v → y ∈ connsOf c1 v) :
    ServerInv { s with cs := c1 } := by
  obtain ⟨h1, h2, h3, h4⟩ := hinv
  have hp : (liveIds s).Perm (d.Connection :: liveIds { s with cs := c1 }) := by
    unfold liveIds
    simp only [hdead, ho, hd, List.map_cons]
    exact perm_third _ _ _ _
  have hnd := List.nodup_cons.1 (hp.nodup_iff.1 h1)
  refine ⟨hnd.2, ?_, ?_, ?_⟩
  · intro x hx
    exact h2 x (hp.mem_iff.2 (List.mem_cons_of_mem _ hx))
  · intro conn u hm
    apply hk u conn _ (h3 conn u hm)
    intro e
    apply hnd.1
    rw [← e]
    simp only [liveIds, List.mem_append, List.mem_map]
    exact Or.inr (Or.inl ⟨(conn, Phase.relay u), hm, rfl⟩)
  · intro d1 hm
    have hm1 : d1 ∈ rest := by simpa [hd] using hm
    apply hk d1.Username d1.Connection _ (h4 d1 (by rw [hdead]; exact List.mem_cons_of_mem _ hm1))
    intro e
    apply hnd.1
    rw [← e]
    simp only [liveIds, List.mem_append, List.mem_map, hd]
    exact Or.inr (Or.inr ⟨d1, hm1, rfl⟩)

/-- The event loop's `deleteUserClient` call in a state that satisfies the
invariant: the connection of the event it received is in the sequence of the
username of the event. -/
theorem reap_registered (s : ServerState) (d : UserConnection) (rest : List UserConnection)
    (hinv : ServerInv s) (hdead : s.cs.DeadConnections = d :: rest) :
    d.Connection ∈ connsOf { s.cs with DeadConnections := rest } d.Username := by
  have h := hinv.2.2.2 d (by rw [hdead]; exact List.mem_cons_self _ _)
  rw [connsOf_congr s.cs { s.cs with DeadConnections := rest } d.Username rfl]
  exact h

theorem inv_reap (s s1 : ServerState) (hinv : ServerInv s)
    (hstep : step s Action.reap = some s1) : ServerInv s1 := by
  simp only [step] at hstep
  split at hstep
  · cases hstep
  · rename_i d rest hdead
    obtain ⟨pre, post, c1, b, _, _, e3, _, e5, e6, e7, _⟩ :=
      deleteUserClient_registered _ _ _ (reap_registered s d rest hinv hdead)
    have hk : ∀ v y, y ≠ d.Connection → y ∈ connsOf s.cs v → y ∈ connsOf c1 v := by
      intro v y hy hm
      apply e5 v y hy
      rw [connsOf_congr s.cs { s.cs with DeadConnections := rest } v rfl]
      exact hm
    cases b with
    | true =>
      simp only [serveDead, e3, if_true, Option.some.injEq] at hstep
      subst hstep
      apply inv_reap_core s d rest hinv hdead
      · exact e6
      · exact e7
      · intro v y hy hm
        show y ∈ connsOf c1 v
        exact hk v y hy hm
    | false =>
      simp only [serveDead, e3, Bool.false_eq_true, if_false, Option.some.injEq] at hstep
      subst hstep
      exact inv_reap_core s d rest hinv hdead c1 e6 e7 hk

theorem inv_handler_gone (s : ServerState) (conn : Conn) (hinv : ServerInv s) :
    ServerInv { s with handlers := dropHandler conn s.handlers } := by
  obtain ⟨h1, h2, h3, h4⟩ := hinv
  have hsub : (liveIds { s with handlers := dropHandler conn s.handlers }).Sublist
      (liveIds s) := by
    unfold liveIds
    exact List.Sublist.append_left
      (List.Sublist.append_right ((dropHandler_sublist conn s.handlers).map Prod.fst) _) _
  refine ⟨h1.sublist hsub, fun x hx => h2 x (hsub.subset hx), ?_, h4⟩
  intro c u hm
  exact h3 c u ((dropHandler_sublist conn s.handlers).subset hm)

theorem inv_handler_moved (s : ServerState) (conn : Conn) (ph ph1 : Phase) (c1 : ChatServer)
    (hinv : ServerInv s) (hm : phaseOf s.handlers conn = some ph)
    (ho : c1.OpenedConnections = s.cs.OpenedConnections)
    (hd : c1.DeadConnections = s.cs.DeadConnections)
    (hk : ∀ v y, y ∈ connsOf s.cs v → y ∈ connsOf c1 v)
    (hnew : ∀ u, ph1 = Phase.relay u → conn ∈ connsOf c1 u) :
    ServerInv { s with cs := c1, handlers := (conn, ph1) :: dropHandler conn s.handlers } := by
  obtain ⟨h1, h2, h3, h4⟩ := hinv
  have hp : (liveIds { s with cs := c1
                              handlers := (conn, ph1) :: dropHandler conn s.handlers }).Perm
      (liveIds s) := by
    unfold liveIds
    simp only [ho, hd]
    apply List.Perm.append_left
    apply List.Perm.append_right
    have hq := (dropHandler_perm s.handlers conn ph hm).map Prod.fst
    simp only [List.map_cons] at hq ⊢
    exact hq.symm
  refine ⟨hp.nodup_iff.2 h1, fun x hx => h2 x (hp.mem_iff.1 hx), ?_, ?_⟩
  · intro c u hc
    rcases List.mem_cons.1 hc with hc | hc
    · simp only [Prod.mk.injEq] at hc
      rw [hc.1]
      exact hnew u hc.2.symm
    · exact hk u c (h3 c u ((dropHandler_sublist conn s.handlers).subset hc))
  · intro d hdm
    have : d ∈ s.cs.DeadConnections := by simpa [hd] using hdm
    exact hk d.Username d.Connection (h4 d this)

theorem inv_handler_dead (s : ServerState) (conn : Conn) (u : String) (hinv : ServerInv s)
    (hm : phaseOf s.handlers conn = some (Phase.relay u)) :
    ServerInv { s with cs := send s.cs (Send.dead ⟨u, conn⟩)
                       handlers := dropHandler conn s.handlers } := by
  obtain ⟨h1, h2, h3, h4⟩ := hinv
  have hp : (liveIds { s with cs := send s.cs (Send.dead ⟨u, conn⟩)
                              handlers := dropHandler conn s.handlers }).Perm
      (liveIds s) := by
    unfold liveIds
    simp only [send, List.map_append, List.map_cons, List.map_nil]
    apply List.Perm.append_left
    have hq := (dropHandler_perm s.handlers conn _ hm).map Prod.fst
    simp only [List.map_cons] at hq
    refine List.Perm.trans ?_ (List.Perm.append_right _ hq.symm)
    rw [← List.append_assoc, List.cons_append]
    exact List.perm_append_singleton _ _
  refine ⟨hp.nodup_iff.2 h1, fun x hx => h2 x (hp.mem_iff.1 hx), ?_, ?_⟩
  · intro c v hc
    exact h3 c v ((dropHandler_sublist conn s.handlers).subset hc)
  · intro d hdm
    simp only [send, List.mem_append, List.mem_singleton] at hdm
    rcases hdm with hdm | hdm
    · exact h4 d hdm
    · rw [hdm]
      exact h3 conn u (mem_of_phaseOf _ _ _ hm)

theorem sends_online (c : ChatServer) (b : Bool) (m : Message) :
    (List.foldl send c (if b = true then [Send.message m] else [])).UserConnections =
      c.UserConnections ∧
    (List.foldl send c (if b = true then [Send.message m] else [])).OpenedConnections =
      c.OpenedConnections ∧
    (List.foldl send c (if b = true then [Send.message m] else [])).DeadConnections =
      c.DeadConnections := by
  cases b <;> exact ⟨rfl, rfl, rfl⟩

theorem inv_read (s s1 : ServerState) (conn : Conn) (r : ReadResult) (hinv : ServerInv s)
    (hstep : step s (Action.read conn r) = some s1) : ServerInv s1 := by
  simp only [step] at hstep
  split at hstep
  · cases hstep
  · rename_i ph hph
    have hm := hph
    simp only [Option.some.injEq] at hstep
    subst hstep
    cases ph with
    | login =>
      cases hr : r.err with
      | some e =>
        simp only [handlerStep, hr, resume, List.foldl]
        exact inv_handler_gone s _ hinv
      | none =>
        simp only [handlerStep, hr, resume]
        obtain ⟨_, _, _, a4, a5, _⟩ := addUserClient_effect s.cs (Trim r.text "\r\n") conn
        obtain ⟨b1, b2, b3⟩ := sends_online (addUserClient s.cs (Trim r.text "\r\n") conn).1
          (addUserClient s.cs (Trim r.text "\r\n") conn).2
          ⟨ServerUsername, onlineText (Trim r.text "\r\n")⟩
        apply inv_handler_moved s conn Phase.login _ _ hinv hm
        · rw [b2, a4]
        · rw [b3, a5]
        · intro v y hy
          rw [connsOf_congr _ _ v b1]
          exact connsOf_addUserClient s.cs (Trim r.text "\r\n") v conn y hy
        · intro u hu
          simp only [Phase.relay.injEq] at hu
          rw [← hu, connsOf_congr _ _ _ b1]
          exact connsOf_addUserClient_self s.cs (Trim r.text "\r\n") conn
    | relay u =>
      cases hr : r.err with
      | some e =>
        simp only [handlerStep, hr, resume, List.foldl]
        exact inv_handler_dead s conn u hinv hm
      | none =>
        simp only [handlerStep, hr, resume, List.foldl]
        apply inv_handler_moved s conn (Phase.relay u) _ _ hinv hm rfl rfl
        · intro v y hy
          exact hy
        · intro u1 hu
          simp only [Phase.relay.injEq] at hu
          rw [← hu]
          exact hinv.2.2.1 conn u (mem_of_phaseOf _ _ _ hm)
    | done =>
      simp only [handlerStep, resume, List.foldl]
      exact inv_handler_gone s _ hinv

theorem inv_step (s s1 : ServerState) (a : Action) (hinv : ServerInv s)
    (hstep : step s a = some s1) : ServerInv s1 := by
  cases a with
  | accept conn => exact inv_accept s s1 conn hinv hstep
  | spawn => exact inv_spawn s s1 hinv hstep
  | read conn r => exact inv_read s s1 conn r hinv hstep
  | reap => exact inv_reap s s1 hinv hstep
  | broadcast writeErr => exact inv_broadcast s s1 writeErr hinv hstep

theorem inv_run (s s1 : ServerState) (acts : List Action) (hinv : ServerInv s)
    (hrun : run s acts = some s1) : ServerInv s1 := by
  induction acts generalizing s with
  | nil =>
    simp only [run, Option.some.injEq] at hrun
    rw [← hrun]
    exact hinv
  | cons a rest ih =>
    simp only [run] at hrun
    split at hrun
    · cases hrun
    · rename_i s2 h2
      exact ih s2 (inv_step s s2 a hinv h2) hrun

theorem inv_reachable (s : ServerState) (h : Reachable s) : ServerInv s := by
  obtain ⟨acts, hrun⟩ := h
  exact inv_run initState s acts inv_init hrun

/-! ## The event loop's removals -/

/-- C10: in every state the server can reach, the dead-connection event the
event loop receives next names a connection that is in the sequence of the
event's username; the search of `deleteUserClient` stops at that connection,
the slice expression is in bounds, the element removed is the connection of
the event, and the step completes. -/
theorem reap_finds_connection (s : ServerState) (hs : Reachable s) (deadConn : UserConnection)
    (rest : List UserConnection) (hd : s.cs.DeadConnections = deadConn :: rest) :
    ∃ pre post c1 b,
      connsOf s.cs deadConn.Username = pre ++ deadConn.Connection :: post ∧
      deadConn.Connection ∉ pre ∧
      searchId (connsOf s.cs deadConn.Username) deadConn.Connection = pre.length ∧
      searchId (connsOf s.cs deadConn.Username) deadConn.Connection + 1 ≤
        (connsOf s.cs deadConn.Username).length ∧
      (connsOf s.cs deadConn.Username).get?
        (searchId (connsOf s.cs deadConn.Username) deadConn.Connection) =
          some deadConn.Connection ∧
      deleteUserClient { s.cs with DeadConnections := rest } deadConn.Username
        deadConn.Connection = some (c1, b) ∧
      connsOf c1 deadConn.Username = pre ++ post ∧
      (step s Action.reap).isSome = true := by
  have hinv := inv_reachable s hs
  have hreg := reap_registered s deadConn rest hinv hd
  obtain ⟨pre, post, c1, b, e1, e2, e3, e4, _, _, _, _, e9⟩ :=
    deleteUserClient_registered _ _ _ hreg
  have hc : connsOf { s.cs with DeadConnections := rest } deadConn.Username =
      connsOf s.cs deadConn.Username := connsOf_congr _ _ _ rfl
  rw [hc] at e1 e9
  refine ⟨pre, post, c1, b, e1, e2, e9, ?_, ?_, e3, e4, ?_⟩
  · rw [e9, e1]
    simp
  · rw [e9, e1, List.get?_eq_getElem?, List.getElem?_append_right (Nat.le_refl _)]
    simp
  · simp only [step, hd, serveDead, e3]
    cases b <;> rfl

/-- A run of C10: a connection is accepted, logs in as bob, and its next read
fails; the event loop then finds connection 1 under bob. -/
theorem reap_finds_connection_witness :
    Reachable
      { cs := { (setEntry NewChatServer "bob" [1]) with
                DeadConnections := [⟨"bob", 1⟩]
                Messages := [⟨"server", "bob is online\r\n"⟩] }
        handlers := []
        accepted := [1] } ∧
    ∃ pre post c1 b,
      connsOf (setEntry NewChatServer "bob" [1]) "bob" = pre ++ (1 : Conn) :: post ∧
      (1 : Conn) ∉ pre ∧
      searchId (connsOf (setEntry NewChatServer "bob" [1]) "bob") 1 = pre.length ∧
      searchId (connsOf (setEntry NewChatServer "bob" [1]) "bob") 1 + 1 ≤
        (connsOf (setEntry NewChatServer "bob" [1]) "bob").length ∧
      (connsOf (setEntry NewChatServer "bob" [1]) "bob").get?
        (searchId (connsOf (setEntry NewChatServer "bob" [1]) "bob") 1) = some 1 ∧
      deleteUserClient
        { (setEntry NewChatServer "bob" [1]) with
          DeadConnections := []
          Messages := [⟨"server", "bob is online\r\n"⟩] } "bob" 1 = some (c1, b) ∧
      connsOf c1 "bob" = pre ++ post ∧
      (step
        { cs := { (setEntry NewChatServer "bob" [1]) with
                  DeadConnections := [⟨"bob", 1⟩]
                  Messages := [⟨"server", "bob is online\r\n"⟩] }
          handlers := []
          accepted := [1] } Action.reap).isSome = true :=
  ⟨⟨[Action.accept 1, Action.spawn, Action.read 1 (okRead "bob\r\n"),
      Action.read 1 ⟨"", some "EOF"⟩], rfl⟩,
    reap_finds_connection
      { cs := { (setEntry NewChatServer "bob" [1]) with
                DeadConnections := [⟨"bob", 1⟩]
                Messages := [⟨"server", "bob is online\r\n"⟩] }
        handlers := []
        accepted := [1] }
      ⟨[Action.accept 1, Action.spawn, Action.read 1 (okRead "bob\r\n"),
        Action.read 1 ⟨"", some "EOF"⟩], rfl⟩
      ⟨"bob", 1⟩ [] rfl⟩

/-! ## The notices and the call sites -/

theorem addUserClient_frame (c : ChatServer) (ms : List Message) (u : String) (x : Conn) :
    addUserClient { c with Messages := ms } u x =
      ({ (addUserClient c u x).1 with Messages := ms }, (addUserClient c u x).2) := by
  have he : entry { c with Messages := ms } u = entry c u := rfl
  unfold addUserClient
  rw [he]
  cases entry c u <;> rfl

theorem deleteUserClient_frame (c c1 : ChatServer) (ms : List Message) (u : String) (x : Conn)
    (b : Bool) (h : deleteUserClient c u x = some (c1, b)) :
    deleteUserClient { c with Messages := ms } u x = some ({ c1 with Messages := ms }, b) := by
  have hc : connsOf { c with Messages := ms } u = connsOf c u := rfl
  unfold deleteUserClient at h ⊢
  rw [hc]
  cases hr : removeAt (connsOf c u) (searchId (connsOf c u) x) with
  | none =>
    rw [hr] at h
    cases h
  | some s1 =>
    rw [hr] at h
    by_cases hl : s1.length = 0
    · simp only [hl, if_true, Option.some.injEq, Prod.mk.injEq] at h ⊢
      rw [← h.1, ← h.2]
      exact ⟨rfl, rfl⟩
    · simp only [hl, if_false, Option.some.injEq, Prod.mk.injEq] at h ⊢
      rw [← h.1, ← h.2]
      exact ⟨rfl, rfl⟩

theorem deleteUserClient_messages (c c1 : ChatServer) (u : String) (x : Conn) (b : Bool)
    (h : deleteUserClient c u x = some (c1, b)) : c1.Messages = c.Messages := by
  unfold deleteUserClient at h
  cases hr : removeAt (connsOf c u) (searchId (connsOf c u) x) with
  | none =>
    rw [hr] at h
    cases h
  | some s1 =>
    rw [hr] at h
    by_cases hl : s1.length = 0
    · simp only [hl, if_true, Option.some.injEq, Prod.mk.injEq] at h
      rw [← h.1]
      rfl
    · simp only [hl, if_false, Option.some.injEq, Prod.mk.injEq] at h
      rw [← h.1]
      rfl

theorem applyOp_frame (c c1 : ChatServer) (ms : List Message) (op : Op) (b : Bool)
    (h : applyOp c op = some (c1, b)) :
    applyOp { c with Messages := ms } op = some ({ c1 with Messages := ms }, b) := by
  cases op with
  | add u x =>
    simp only [applyOp, Option.some.injEq] at h ⊢
    rw [addUserClient_frame, h]
  | remove u x => exact deleteUserClient_frame c c1 ms u x b h

theorem runOps_frame (c r : ChatServer) (ms : List Message) (ops : List Op) (bs : List Bool)
    (h : runOps c ops = some (r, bs)) :
    runOps { c with Messages := ms } ops = some ({ r with Messages := ms }, bs) := by
  induction ops generalizing c bs with
  | nil =>
    simp only [runOps, Option.some.injEq, Prod.mk.injEq] at h ⊢
    rw [← h.1, ← h.2]
    exact ⟨rfl, rfl⟩
  | cons op rest ih =>
    obtain ⟨c1, b1, bs1, e1, e2, e3⟩ := runOps_cons_inv c r op rest bs h
    rw [e3]
    exact runOps_cons_some _ _ _ op rest b1 bs1 (applyOp_frame c c1 ms op b1 e1) (ih c1 bs1 e2)

/-- One call site run as a whole does to the registry what its registry call
does, and puts the notice that goes with the result of the call at the end of
the `Messages` queue. -/
theorem serveCall_sends (c c1 : ChatServer) (ms : List Message) (k : Call) (b : Bool)
    (h : applyOp c (opOf k) = some (c1, b)) :
    serveCall { c with Messages := ms } k =
      some { c1 with
        Messages := ms ++ (noticeOf (opUser (opOf k)) (opOf k) b).map
          (noticeMessage (opUser (opOf k))) } := by
  cases k with
  | login line conn =>
    simp only [opOf, applyOp, Option.some.injEq] at h
    simp only [serveCall, handlerStep, okRead, addUserClient_frame, h, opOf, opUser, noticeOf]
    cases b <;> simp [send, noticeMessage]
  | dead u conn =>
    simp only [opOf, applyOp] at h
    simp only [serveCall, serveDead, deleteUserClient_frame c c1 ms u conn b h, opOf, opUser,
      noticeOf]
    cases b <;> simp [send, noticeMessage]

theorem serveCalls_sends (c r : ChatServer) (ms : List Message) (calls : List Call)
    (bs : List Bool) (h : runOps c (calls.map opOf) = some (r, bs)) :
    serveCalls { c with Messages := ms } calls =
      some { r with Messages := ms ++ sentAll (calls.map opOf) bs } := by
  induction calls generalizing c ms bs with
  | nil =>
    simp only [List.map_nil, runOps, Option.some.injEq, Prod.mk.injEq] at h
    rw [← h.1, ← h.2]
    simp [serveCalls, sentAll]
  | cons k rest ih =>
    rw [List.map_cons] at h
    obtain ⟨c1, b1, bs1, e1, e2, e3⟩ := runOps_cons_inv c r (opOf k) (rest.map opOf) bs h
    have hk := serveCall_sends c c1 ms k b1 e1
    have hrest := ih c1 (ms ++ (noticeOf (opUser (opOf k)) (opOf k) b1).map
      (noticeMessage (opUser (opOf k)))) bs1 e2
    rw [e3]
    simp only [serveCalls, hk, List.map_cons, sentAll]
    rw [List.append_assoc] at hrest
    exact hrest

theorem dropNotice_perm (hn : List (Conn × Message)) (conn : Conn) (m : Message)
    (h : noticeFor hn conn = some m) :
    (hn.map Prod.snd).Perm (m :: (dropNotice conn hn).map Prod.snd) := by
  induction hn with
  | nil => cases h
  | cons p rest ih =>
    obtain ⟨y, q⟩ := p
    by_cases hy : y = conn
    · simp only [noticeFor, hy, if_true, Option.some.injEq] at h
      simp only [dropNotice, hy, if_true, List.map_cons, h]
      exact List.Perm.refl _
    · simp only [noticeFor, hy, if_false] at h
      simp only [dropNotice, hy, if_false, List.map_cons]
      exact ((ih h).cons q).trans (List.Perm.swap _ _ _)

theorem perm_decided_new (a b d : List Message) (m : Message) :
    (a ++ ((b ++ [m]) ++ d)).Perm ((a ++ (b ++ d)) ++ [m]) := by
  rw [List.append_assoc a, List.append_assoc b, List.append_assoc b]
  exact List.Perm.append_left a (List.Perm.append_left b List.perm_append_comm)

theorem perm_decided_sent (a b b1 d : List Message) (m : Message) (h : b.Perm (m :: b1)) :
    ((a ++ [m]) ++ (b1 ++ d)).Perm (a ++ (b ++ d)) := by
  rw [List.append_assoc a]
  apply List.Perm.append_left a
  exact (List.Perm.append_right d h).symm

/-- One statement keeps the account of the notices: the registry changes as
the registry call says, and the notices decided afterwards are those decided
before together with the notice of the call, if the statement is a call. -/
theorem noticeStep_account (s s1 : NoticeState) (a : NoticeAction)
    (h : noticeStep s a = some s1) :
    ∃ ms, (decided s1).Perm (decided s ++ ms) ∧
      ((callsOf [a] = [] ∧ ms = [] ∧ s1.cs = { s.cs with Messages := s1.cs.Messages }) ∨
        ∃ op b c1, callsOf [a] = [op] ∧ applyOp s.cs op = some (c1, b) ∧ s1.cs = c1 ∧
          ms = (noticeOf (opUser op) op b).map (noticeMessage (opUser op))) := by
  cases a with
  | register line conn =>
    simp only [noticeStep, Option.some.injEq] at h
    obtain ⟨_, _, _, _, _, hm⟩ := addUserClient_effect s.cs (Trim line "\r\n") conn
    refine ⟨(noticeOf (Trim line "\r\n") (Op.add (Trim line "\r\n") conn)
      (addUserClient s.cs (Trim line "\r\n") conn).2).map (noticeMessage (Trim line "\r\n")),
      ?_, Or.inr ⟨Op.add (Trim line "\r\n") conn, (addUserClient s.cs (Trim line "\r\n") conn).2,
        (addUserClient s.cs (Trim line "\r\n") conn).1, rfl, rfl, ?_, rfl⟩⟩
    · rw [← h]
      simp only [decided, hm, noticeOf]
      cases (addUserClient s.cs (Trim line "\r\n") conn).2
      · simp
      · simp only [if_true, true_and, List.map_append, List.map_cons, List.map_nil,
          noticeMessage]
        exact perm_decided_new _ _ _ _
    · rw [← h]
  | sendOnline conn =>
    simp only [noticeStep] at h
    split at h
    · cases h
    · rename_i m hm
      simp only [Option.some.injEq] at h
      refine ⟨[], ?_, Or.inl ⟨rfl, rfl, ?_⟩⟩
      · rw [← h, List.append_nil]
        simp only [decided, send]
        exact perm_decided_sent _ _ _ _ m (dropNotice_perm _ _ _ hm)
      · rw [← h]
        rfl
  | delete u conn =>
    simp only [noticeStep] at h
    split at h
    · cases h
    · rename_i hloop
      split at h
      · cases h
      · rename_i c1 deleted hd
        simp only [Option.some.injEq] at h
        have hmsg := deleteUserClient_messages s.cs c1 u conn deleted hd
        refine ⟨(noticeOf u (Op.remove u conn) deleted).map (noticeMessage u), ?_,
          Or.inr ⟨Op.remove u conn, deleted, c1, rfl, hd, ?_, rfl⟩⟩
        · rw [← h]
          simp only [decided, hmsg, hloop, noticeOf]
          cases deleted
          · simp
          · simp [noticeMessage]
        · rw [← h]
  | sendOffline =>
    simp only [noticeStep] at h
    split at h
    · cases h
    · rename_i m hm
      simp only [Option.some.injEq] at h
      refine ⟨[], ?_, Or.inl ⟨rfl, rfl, ?_⟩⟩
      · rw [← h, List.append_nil]
        simp only [decided, send, hm, Option.toList, List.append_nil]
        rw [List.append_assoc]
        exact List.Perm.append_left _ List.perm_append_comm
      · rw [← h]
        rfl

theorem callsOf_cons (a : NoticeAction) (rest : List NoticeAction) :
    callsOf (a :: rest) = callsOf [a] ++ callsOf rest := by
  cases a <;> rfl

/-- Statements in any order keep the account of the notices: the registry is
the one the registry calls among them produce, and every notice that goes
with the result of a call is in the queue or waiting to be sent, once. -/
theorem noticeRun_account (acts : List NoticeAction) (s s1 : NoticeState)
    (h : noticeRun s acts = some s1) :
    ∃ r bs, runOps s.cs (callsOf acts) = some (r, bs) ∧
      s1.cs.UserConnections = r.UserConnections ∧
      (decided s1).Perm (decided s ++ sentAll (callsOf acts) bs) := by
  induction acts generalizing s with
  | nil =>
    simp only [noticeRun, Option.some.injEq] at h
    rw [← h]
    exact ⟨s.cs, [], rfl, rfl, by simp [callsOf, sentAll]⟩
  | cons a rest ih =>
    simp only [noticeRun] at h
    split at h
    · cases h
    · rename_i s2 h2
      obtain ⟨r2, bs2, e1, e2, e3⟩ := ih s2 h
      obtain ⟨ms, hp, hcase⟩ := noticeStep_account s s2 a h2
      rw [callsOf_cons]
      rcases hcase with ⟨hc, hms, hcs⟩ | ⟨op, b, c1, hc, happ, hcs, hms⟩
      · rw [hcs] at e1
        have e1' : runOps s.cs (callsOf rest) =
            some ({ r2 with Messages := s.cs.Messages }, bs2) :=
          runOps_frame { s.cs with Messages := s2.cs.Messages } r2 s.cs.Messages _ _ e1
        refine ⟨{ r2 with Messages := s.cs.Messages }, bs2, ?_, e2, ?_⟩
        · rw [hc, List.nil_append]
          exact e1'
        · rw [hc, List.nil_append]
          rw [hms, List.append_nil] at hp
          exact e3.trans (List.Perm.append_right _ hp)
      · rw [hcs] at e1
        refine ⟨r2, b :: bs2, ?_, e2, ?_⟩
        · rw [hc, List.singleton_append]
          exact runOps_cons_some _ _ _ op _ b bs2 happ e1
        · rw [hc, List.singleton_append]
          simp only [sentAll]
          rw [← hms, ← List.append_assoc]
          exact e3.trans (List.Perm.append_right _ hp)

/-- A handler's call and its send right after it are `handlerStep` from the
login phase with its sends put on the channel. -/
theorem register_then_send (c : ChatServer) (line : String) (conn : Conn) :
    (noticeRun (quiet c) (NoticeAction.register line conn ::
        if (addUserClient c (Trim line "\r\n") conn).2 then [NoticeAction.sendOnline conn]
        else [])).map (fun s => s.cs) = serveCall c (Call.login line conn) := by
  simp only [serveCall, handlerStep, okRead, noticeRun, noticeStep, quiet]
  cases (addUserClient c (Trim line "\r\n") conn).2 <;>
    simp [noticeRun, noticeStep, noticeFor, dropNotice]

/-- The event loop's call and its send right after it are `serveDead`. -/
theorem delete_then_send (c c1 : ChatServer) (u : String) (conn : Conn) (b : Bool)
    (h : deleteUserClient c u conn = some (c1, b)) :
    (noticeRun (quiet c) (NoticeAction.delete u conn ::
        if b then [NoticeAction.sendOffline] else [])).map (fun s => s.cs) =
      serveCall c (Call.dead u conn) := by
  simp only [serveCall, serveDead, noticeRun, noticeStep, quiet, h]
  cases b <;> simp [noticeRun, noticeStep]

/-- C4, as stated, fails for the notices as they enter the `Messages` queue:
the send comes after the registry call has returned, so between the event
loop's `deleteUserClient` for the last connection of alice and its send of the
offline notice a second connection can log in as alice and send its online
notice.  The calls are well-formed and their results are true, true, true, but
the queue reads online, online, offline while alice is registered. -/
theorem notices_queue_counterexample :
    WellFormed (callsOf [NoticeAction.register "alice\r\n" 1, NoticeAction.sendOnline 1,
      NoticeAction.delete "alice" 1, NoticeAction.register "alice\r\n" 2,
      NoticeAction.sendOnline 2, NoticeAction.sendOffline]) ∧
    (noticeRun (quiet NewChatServer) [NoticeAction.register "alice\r\n" 1,
      NoticeAction.sendOnline 1, NoticeAction.delete "alice" 1,
      NoticeAction.register "alice\r\n" 2, NoticeAction.sendOnline 2,
      NoticeAction.sendOffline]).map
        (fun s => (s.cs.Messages, s.handlerNotice, s.loopNotice, entry s.cs "alice")) =
      some ([⟨"server", "alice is online\r\n"⟩, ⟨"server", "alice is online\r\n"⟩,
        ⟨"server", "alice is offline\r\n"⟩], [], none, some [2]) := by
  decide

/-- C4, amended: from the empty registry, for call sites whose registry calls
add each connection at most once and remove it at most once, only after its
add and under the same username: no call panics; an add for `u` returns true
exactly when `u` had no live connection before the call and a remove for `u`
exactly when `u` had one; in the order of the calls the notices of every
username are online, offline, online, ...; when every call site sends before
the next call, `handlerStep` and `serveDead` leave exactly these notices in the
`Messages` queue in that order; and wherever the sends fall between the
calls, the registry is the same and every notice is in the queue or waiting to
be sent exactly once. -/
theorem notices_in_call_order (calls : List Call) (hwf : WellFormed (calls.map opOf)) :
    ∃ r bs, runOps NewChatServer (calls.map opOf) = some (r, bs) ∧
      (∀ pre op post, calls.map opOf = pre ++ op :: post →
        ∃ b, bs.get? pre.length = some b ∧
          (∀ u x, op = Op.add u x → (b = true ↔ (liveConns pre u).length = 0)) ∧
          (∀ u x, op = Op.remove u x → (b = true ↔ (liveConns pre u).length = 1))) ∧
      (∀ u, notices u (calls.map opOf) bs =
        alternation (notices u (calls.map opOf) bs).length) ∧
      serveCalls NewChatServer calls =
        some { r with Messages := sentAll (calls.map opOf) bs } ∧
      (∀ acts s, callsOf acts = calls.map opOf →
        noticeRun (quiet NewChatServer) acts = some s →
        s.cs.UserConnections = r.UserConnections ∧
        (decided s).Perm (sentAll (calls.map opOf) bs)) := by
  obtain ⟨r, bs, hrun, hpos, halt⟩ := results_by_live_count (calls.map opOf) hwf
  refine ⟨r, bs, hrun, ?_, halt, ?_, ?_⟩
  · intro pre op post hsplit
    obtain ⟨_, _, _, b, _, _, h3, h4, h5⟩ := hpos pre op post hsplit
    exact ⟨b, h3, h4, h5⟩
  · exact serveCalls_sends NewChatServer r [] calls bs hrun
  · intro acts s hcalls hfine
    obtain ⟨r1, bs1, e1, e2, e3⟩ := noticeRun_account acts (quiet NewChatServer) s hfine
    rw [hcalls] at e1 e3
    have e1' : runOps NewChatServer (calls.map opOf) = some (r1, bs1) := e1
    rw [hrun] at e1'
    simp only [Option.some.injEq, Prod.mk.injEq] at e1'
    rw [← e1'.1] at e2
    rw [← e1'.2] at e3
    exact ⟨e2, e3⟩

/-- A run of the amended C4: the two connections of alice from the claim, with
bob in between and alice back at the end. -/
theorem notices_in_call_order_witness :
    WellFormed ([Call.login "alice\r\n" 1, Call.login "bob\r\n" 3, Call.login "alice\r\n" 2,
      Call.dead "alice" 1, Call.dead "alice" 2, Call.login "alice\r\n" 4].map opOf) ∧
    runOps NewChatServer ([Call.login "alice\r\n" 1, Call.login "alice\r\n" 2,
      Call.dead "alice" 1, Call.dead "alice" 2].map opOf) =
        some (NewChatServer, [true, false, false, true]) ∧
    (serveCalls NewChatServer [Call.login "alice\r\n" 1, Call.login "alice\r\n" 2,
      Call.dead "alice" 1, Call.dead "alice" 2]).map (fun c => c.Messages) =
        some [⟨"server", "alice is online\r\n"⟩, ⟨"server", "alice is offline\r\n"⟩] ∧
    ∃ r bs, runOps NewChatServer ([Call.login "alice\r\n" 1, Call.login "bob\r\n" 3,
        Call.login "alice\r\n" 2, Call.dead "alice" 1, Call.dead "alice" 2,
        Call.login "alice\r\n" 4].map opOf) = some (r, bs) ∧
      (∀ pre op post, [Call.login "alice\r\n" 1, Call.login "bob\r\n" 3,
          Call.login "alice\r\n" 2, Call.dead "alice" 1, Call.dead "alice" 2,
          Call.login "alice\r\n" 4].map opOf = pre ++ op :: post →
        ∃ b, bs.get? pre.length = some b ∧
          (∀ u x, op = Op.add u x → (b = true ↔ (liveConns pre u).length = 0)) ∧
          (∀ u x, op = Op.remove u x → (b = true ↔ (liveConns pre u).length = 1))) ∧
      (∀ u, notices u ([Call.login "alice\r\n" 1, Call.login "bob\r\n" 3,
          Call.login "alice\r\n" 2, Call.dead "alice" 1, Call.dead "alice" 2,
          Call.login "alice\r\n" 4].map opOf) bs =
        alternation (notices u ([Call.login "alice\r\n" 1, Call.login "bob\r\n" 3,
          Call.login "alice\r\n" 2, Call.dead "alice" 1, Call.dead "alice" 2,
          Call.login "alice\r\n" 4].map opOf) bs).length) ∧
      serveCalls NewChatServer [Call.login "alice\r\n" 1, Call.login "bob\r\n" 3,
          Call.login "alice\r\n" 2, Call.dead "alice" 1, Call.dead "alice" 2,
          Call.login "alice\r\n" 4] =
        some { r with Messages := sentAll ([Call.login "alice\r\n" 1, Call.login "bob\r\n" 3,
          Call.login "alice\r\n" 2, Call.dead "alice" 1, Call.dead "alice" 2,
          Call.login "alice\r\n" 4].map opOf) bs } ∧
      (∀ acts s, callsOf acts = [Call.login "alice\r\n" 1, Call.login "bob\r\n" 3,
          Call.login "alice\r\n" 2, Call.dead "alice" 1, Call.dead "alice" 2,
          Call.login "alice\r\n" 4].map opOf →
        noticeRun (quiet NewChatServer) acts = some s →
        s.cs.UserConnections = r.UserConnections ∧
        (decided s).Perm (sentAll ([Call.login "alice\r\n" 1, Call.login "bob\r\n" 3,
          Call.login "alice\r\n" 2, Call.dead "alice" 1, Call.dead "alice" 2,
          Call.login "alice\r\n" 4].map opOf) bs)) :=
  ⟨by decide, by decide, by decide,
    notices_in_call_order [Call.login "alice\r\n" 1, Call.login "bob\r\n" 3,
      Call.login "alice\r\n" 2, Call.dead "alice" 1, Call.dead "alice" 2,
      Call.login "alice\r\n" 4] (by decide)⟩

/-! ## Removal of a pair that is not present -/

/-- C3, amended: for a pair `(u, c)` that is not present, `deleteUserClient`
panics when `u` has no connection; otherwise it completes, removes the first
connection of `u`, leaves the other usernames and the channels alone, and
returns true exactly when that connection was the only one of `u`.  The
server does not get there: in no state it can reach does the event loop
receive the event of `(u, c)` while the registry is the given one. -/
theorem deleteUserClient_not_present (c : ChatServer) (u : String) (conn : Conn)
    (h : conn ∉ connsOf c u) :
    (connsOf c u = [] → deleteUserClient c u conn = none) ∧
    (∀ x rest, connsOf c u = x :: rest →
      ∃ c1 b, deleteUserClient c u conn = some (c1, b) ∧ (b = true ↔ rest = []) ∧
        connsOf c1 u = rest ∧ (entry c1 u = none ↔ rest = []) ∧
        (∀ u', u' ≠ u → entry c1 u' = entry c u') ∧
        c1.OpenedConnections = c.OpenedConnections ∧
        c1.DeadConnections = c.DeadConnections ∧
        c1.Messages = c.Messages) ∧
    (∀ s rest, Reachable s → s.cs.DeadConnections = ⟨u, conn⟩ :: rest →
      s.cs.UserConnections ≠ c.UserConnections) := by
  have hid : searchId (connsOf c u) conn = 0 := by
    simp [searchId, searchFrom_absent conn (connsOf c u) 0 h]
  refine ⟨?_, ?_, ?_⟩
  · intro hnil
    unfold deleteUserClient
    rw [hid, hnil]
    rfl
  · intro x rest hcons
    have hrem : removeAt (connsOf c u) 0 = some rest := by
      rw [hcons]
      simp [removeAt]
    by_cases hl : rest.length = 0
    · have hr : rest = [] := List.length_eq_zero.1 hl
      refine ⟨deleteEntry (setEntry c u rest) u, true, ?_, ?_, ?_, ?_, ?_, rfl, rfl, rfl⟩
      · unfold deleteUserClient
        rw [hid, hrem]
        exact if_pos hl
      · simp [hr]
      · simp [connsOf, entry_deleteEntry, hr]
      · simp [entry_deleteEntry, hr]
      · intro u' hu
        rw [entry_deleteEntry_ne _ hu, entry_setEntry_ne _ _ hu]
    · have hr : rest ≠ [] := fun e => hl (by rw [e]; rfl)
      refine ⟨setEntry c u rest, false, ?_, ?_, ?_, ?_, ?_, rfl, rfl, rfl⟩
      · unfold deleteUserClient
        rw [hid, hrem]
        exact if_neg hl
      · simp [hr]
      · simp [connsOf, entry_setEntry]
      · simp [entry_setEntry, hr]
      · intro u' hu
        exact entry_setEntry_ne _ _ hu
  · intro s rest hreach hd he
    have hreg := reap_registered s ⟨u, conn⟩ rest (inv_reachable s hreach) hd
    rw [connsOf_congr c { s.cs with DeadConnections := rest } u he] at hreg
    exact h hreg

/-- A run of the amended C3: alice holds connections 1 and 3, and connection
2 is to be removed under her name. -/
theorem deleteUserClient_not_present_witness :
    (2 : Conn) ∉ connsOf (setEntry NewChatServer "alice" [1, 3]) "alice" ∧
    deleteUserClient (setEntry NewChatServer "alice" [1, 3]) "alice" 2 =
      some (setEntry NewChatServer "alice" [3], false) ∧
    (∀ s rest, Reachable s → s.cs.DeadConnections = ⟨"alice", 2⟩ :: rest →
      s.cs.UserConnections ≠ (setEntry NewChatServer "alice" [1, 3]).UserConnections) :=
  ⟨by decide, by decide,
    (deleteUserClient_not_present (setEntry NewChatServer "alice" [1, 3]) "alice" 2 (by decide)).2.2⟩

end SimpleChat
